import Mathlib

/-!
Verification of `bin/workspace-cursorrules-symlink.js`.

We shallowly embed the script's filesystem behaviour.  Paths are lists of
components.  A filesystem is an association list from paths to entries,
together with fault-injection lists that make `readdirSync`, `unlinkSync`,
and `symlinkSync` raise, mirroring the I/O errors the script can encounter.

Modelling notes (deliberate, documented simplifications):
* Symbolic links are resolved at the final path component only
  (`resolveN`); resolution of symlinks appearing as *intermediate*
  components of a path is not modelled.  `fs.existsSync` and
  `fs.statSync(..).isDirectory()` follow symlink chains, as in Node;
  `readdirSync(dir, withFileTypes)` reports each entry's own type
  (symlinks are not followed), `unlinkSync` removes the entry itself and
  `symlinkSync` fails with EEXIST when any entry (even a dangling
  symlink) occupies the target, as in Node.
* `readFileSync`/`writeFileSync` are used by the script only on
  `.vscode/settings.json`; we read/write the entry at the literal path
  (the corner case of `settings.json` itself being a symlink is not
  modelled).
* File contents are either a parsed JSON value (`jsonData`) or raw text
  that is empty or does not parse (`rawData`); `JSON.parse` succeeds
  exactly on `jsonData`.
* JavaScript numbers are modelled as integers; `NaN` is not modelled.
  Spreading a non-object (`\x7b...a\x7d` for primitive `a`) is modelled as
  contributing no fields, which agrees with JS for all non-string
  primitives; the script only ever spreads the parse result or `\x7b\x7d`.
-/

abbrev FPath := List String

inductive JSONVal where
  | null : JSONVal
  | bool (b : Bool) : JSONVal
  | num (n : Int) : JSONVal
  | str (s : String) : JSONVal
  | arr (elems : List JSONVal) : JSONVal
  | obj (fields : List (String × JSONVal)) : JSONVal

inductive FileData where
  /-- content that `JSON.parse` accepts -/
  | jsonData (v : JSONVal) : FileData
  /-- content that is empty or malformed (parse throws) -/
  | rawData (s : String) : FileData

inductive FSEntry where
  | file (data : FileData) : FSEntry
  | dir : FSEntry
  | symlink (target : FPath) : FSEntry

structure FS where
  entries : List (FPath × FSEntry)
  /-- directories on which `readdirSync` throws (e.g. permission denied) -/
  unreadable : List FPath
  /-- paths on which `unlinkSync` throws -/
  unlinkDenied : List FPath
  /-- target paths on which `symlinkSync` throws (beyond EEXIST) -/
  symlinkDenied : List FPath

namespace FS

def entryAt (fs : FS) (p : FPath) : Option FSEntry :=
  (fs.entries.find? (fun pe => pe.1 == p)).map (·.2)

/-- keys are duplicate-free (any real directory listing satisfies this) -/
def WF (fs : FS) : Prop := (fs.entries.map Prod.fst).Nodup

def insert (fs : FS) (p : FPath) (e : FSEntry) : FS :=
  { fs with entries := (p, e) :: fs.entries.filter (fun pe => !(pe.1 == p)) }

def remove (fs : FS) (p : FPath) : FS :=
  { fs with entries := fs.entries.filter (fun pe => !(pe.1 == p)) }

/-- follow a symlink chain for at most `n` steps; `none` when the path
has no entry or the chain is too long (ELOOP). -/
def resolveN (fs : FS) : Nat → FPath → Option FSEntry
  | 0, _ => none
  | n + 1, p =>
    match fs.entryAt p with
    | some (.symlink t) => fs.resolveN n t
    | e => e

/-- fuel that suffices to resolve any terminating symlink chain -/
def resFuel (fs : FS) : Nat := fs.entries.length + 1

/-- what `fs.statSync(p)` sees (follows symlinks) -/
def statEntry (fs : FS) (p : FPath) : Option FSEntry :=
  fs.resolveN fs.resFuel p

/-- `fs.existsSync(p)`: stat-based, follows symlinks, `false` on dangling
links and on symlink loops (stat throws, existsSync returns false). -/
def existsSync (fs : FS) (p : FPath) : Bool :=
  (fs.statEntry p).isSome

/-- `fs.statSync(p).isDirectory()` (only called under an existsSync guard) -/
def statIsDir (fs : FS) (p : FPath) : Bool :=
  match fs.statEntry p with
  | some .dir => true
  | _ => false

/-- the children of `d`, with their own entry types (lstat semantics of
`readdirSync(d, \x7b withFileTypes: true \x7d)`) -/
def childrenOf (fs : FS) (d : FPath) : List (String × FSEntry) :=
  fs.entries.filterMap fun pe =>
    if !pe.1.isEmpty && (pe.1.dropLast == d) then some (pe.1.getLastD "", pe.2)
    else none

def readdirSync (fs : FS) (d : FPath) : Except Unit (List (String × FSEntry)) :=
  if fs.unreadable.contains d then .error ()
  else if fs.statIsDir d then .ok (fs.childrenOf d) else .error ()

def unlinkSync (fs : FS) (p : FPath) : Except Unit FS :=
  if fs.unlinkDenied.contains p then .error ()
  else if (fs.entryAt p).isSome then .ok (fs.remove p) else .error ()

def symlinkSync (fs : FS) (src tgt : FPath) : Except Unit FS :=
  if (fs.entryAt tgt).isSome then .error ()
  else if fs.symlinkDenied.contains tgt then .error ()
  else .ok (fs.insert tgt (.symlink src))

/-- all prefixes of `p`, shortest first (including `[]` and `p`) -/
def prefixesOf (p : FPath) : List FPath :=
  (List.range (p.length + 1)).map (fun n => p.take n)

/-- one step of `mkdirSync(.., recursive)`: create a directory at `q`
when it has no entry yet -/
def mkdirStep (s : FS) (q : FPath) : FS :=
  if (s.entryAt q).isSome then s else s.insert q .dir

/-- `fs.mkdirSync(p, \x7b recursive: true \x7d)`: create a directory at every
prefix of `p` that has no entry yet. -/
def mkdirRec (fs : FS) (p : FPath) : FS :=
  (prefixesOf p).foldl mkdirStep fs

def readFileSync (fs : FS) (p : FPath) : Option FileData :=
  match fs.entryAt p with
  | some (.file d) => some d
  | _ => none

def writeFileSync (fs : FS) (p : FPath) (d : FileData) : FS :=
  fs.insert p (.file d)

end FS

/-! ## The recursive file enumeration (`getAllFiles`, lines 178-197)

The script's `traverse` recurses without bound.  We model the recursion
with explicit fuel: `none` represents a recursion that would not have
finished within the given nesting depth.  `traverseFuel` descends into a
child exactly when the directory entry itself is a directory
(`entry.isDirectory()` on a `withFileTypes` dirent does not follow
symlinks), and pushes every other entry, symlinks included, as a file. -/

/-- the `for (const entry of entries)` loop of `traverse` (lines 184-192):
`recurse` is the traversal at one less nesting depth, used for directory
entries; every non-directory entry (symlinks included) is pushed as a
file. -/
def traverseList (recurse : FPath → Option (Except Unit (List FPath))) :
    FPath → List (String × FSEntry) → Option (Except Unit (List FPath))
  | _, [] => some (.ok [])
  | d, (name, ety) :: rest =>
    let fullPath := d ++ [name]
    match ety with
    | .dir =>
      match recurse fullPath with
      | none => none
      | some (.error e) => some (.error e)
      | some (.ok sub) =>
        match traverseList recurse d rest with
        | none => none
        | some (.error e) => some (.error e)
        | some (.ok restFiles) => some (.ok (sub ++ restFiles))
    | _ =>
      match traverseList recurse d rest with
      | none => none
      | some (.error e) => some (.error e)
      | some (.ok restFiles) => some (.ok (fullPath :: restFiles))

def FS.traverseFuel (fs : FS) : Nat → FPath → Option (Except Unit (List FPath))
  | 0, _ => none
  | n + 1, d =>
    match fs.readdirSync d with
    | .error e => some (.error e)
    | .ok entries => traverseList (fs.traverseFuel n) d entries

/-- an upper bound on the length of any path that has an entry -/
def FS.maxLen (fs : FS) : Nat :=
  fs.entries.foldr (fun pe m => max pe.1.length m) 0

/-- fuel that provably suffices for the traversal (see `traverseFuel_total`) -/
def FS.depthFuel (fs : FS) : Nat := fs.maxLen + 1

/-- `getAllFiles(dir)` (line 178): all files reachable by recursive
descent, in directory-listing order; `IOError`s propagate to the caller.
The `getD` default is never taken (`traverseFuel_total` below). -/
def FS.getAllFiles (fs : FS) (d : FPath) : Except Unit (List FPath) :=
  (fs.traverseFuel fs.depthFuel d).getD (.ok [])

/-! ## The per-file reconciler (lines 124-170) -/

inductive Outcome where
  | created : Outcome
  | skipped : Outcome
  | failed : Outcome
deriving DecidableEq

/-- lines 151-169: create the symlink when the (resolved) target does not
exist, else skip; creation failures are caught and counted -/
def attemptLink (fs : FS) (src tgt : FPath) : FS × Outcome :=
  if !fs.existsSync tgt then
    match fs.symlinkSync src tgt with
    | .ok fs2 => (fs2, .created)
    | .error _ => (fs, .failed)
  else (fs, .skipped)

/-- the body of `ruleFiles.forEach` (lines 124-170): relative path,
parent-directory creation, force-unlink, then `attemptLink`.  All error
paths inside are caught; the function is total. -/
def processRuleFile (force : Bool) (rulesDir targetProjectRulesDir : FPath)
    (fs : FS) (ruleFile : FPath) : FS × Outcome :=
  let relativePath := ruleFile.drop rulesDir.length
  let targetPath := targetProjectRulesDir ++ relativePath
  let targetParentDir := targetPath.dropLast
  let fs1 := if fs.existsSync targetParentDir then fs else fs.mkdirRec targetParentDir
  if force && fs1.existsSync targetPath then
    match fs1.unlinkSync targetPath with
    | .error _ => (fs1, .failed)
    | .ok fs2 => attemptLink fs2 ruleFile targetPath
  else attemptLink fs1 ruleFile targetPath

/-! ## Statistics and the per-project loop (lines 87-175) -/

structure Stats where
  totalProjects : Nat
  totalRuleFiles : Nat
  created : Nat
  skipped : Nat
  failed : Nat
deriving DecidableEq

def countOutcome (st : Stats) : Outcome → Stats
  | .created => { st with created := st.created + 1 }
  | .skipped => { st with skipped := st.skipped + 1 }
  | .failed => { st with failed := st.failed + 1 }

def processRuleFiles (force : Bool) (rulesDir targetProjectRulesDir : FPath) :
    List FPath → FS → Stats → FS × Stats
  | [], fs, st => (fs, st)
  | f :: rest, fs, st =>
    let r := processRuleFile force rulesDir targetProjectRulesDir fs f
    processRuleFiles force rulesDir targetProjectRulesDir rest r.1 (countOutcome st r.2)

def rootCursorRulesDir (rootDir : FPath) : FPath := rootDir ++ [".cursor", "rules"]

/-- one iteration of `projectDirs.forEach` (lines 94-175).  An exception
from `getAllFiles` is NOT caught by the script and propagates (`.error`). -/
def processProject (force : Bool) (rootDir : FPath) (fs : FS) (st : Stats)
    (projectDir : String) : Except Unit (FS × Stats) :=
  let cursorDir := rootDir ++ [projectDir, ".cursor"]
  if fs.existsSync cursorDir && fs.statIsDir cursorDir then
    let rulesDir := cursorDir ++ ["rules"]
    if fs.existsSync rulesDir && fs.statIsDir rulesDir then
      let targetProjectRulesDir := rootDir ++ [".cursor", "rules", projectDir]
      let fs1 := if fs.existsSync targetProjectRulesDir then fs
                 else fs.mkdirRec targetProjectRulesDir
      match fs1.getAllFiles rulesDir with
      | .error e => .error e
      | .ok ruleFiles =>
        let st1 := { st with totalRuleFiles := st.totalRuleFiles + ruleFiles.length }
        .ok (processRuleFiles force rulesDir targetProjectRulesDir ruleFiles fs1 st1)
    else .ok (fs, st)
  else .ok (fs, st)

def processProjects (force : Bool) (rootDir : FPath) :
    List String → FS → Stats → Except Unit (FS × Stats)
  | [], fs, st => .ok (fs, st)
  | p :: rest, fs, st =>
    match processProject force rootDir fs st p with
    | .error e => .error e
    | .ok r => processProjects force rootDir rest r.1 r.2

/-! ## The settings merger (`createVSCodeSettings`, lines 200-269) -/

def JSONVal.truthy : JSONVal → Bool
  | .null => false
  | .bool b => b
  | .num n => n != 0
  | .str s => s != ""
  | .arr _ => true
  | .obj _ => true

def lookupField (fields : List (String × JSONVal)) (k : String) : Option JSONVal :=
  (fields.find? (fun kv => kv.1 == k)).map (·.2)

/-- `existingSettings[key]`: `none` models JS `undefined` -/
def JSONVal.getKey : JSONVal → String → Option JSONVal
  | .obj fields, k => lookupField fields k
  | _, _ => none

/-- the object spread `\x7b ...a, ...b \x7d`: a's keys in order with b's
values where overridden, then b's new keys -/
def JSONVal.spreadMerge : JSONVal → JSONVal → JSONVal
  | .obj a, .obj b =>
    .obj ((a.map fun kv =>
             match lookupField b kv.1 with
             | some v => (kv.1, v)
             | none => kv)
          ++ b.filter (fun kv => (lookupField a kv.1).isNone))
  | _, b => b

/-- the `eslintConfig` object of line 205 -/
def eslintConfigVal : JSONVal :=
  .obj [("eslint.workingDirectories", .arr [.obj [("mode", .str "auto")]])]

def vscodeDirOf (rootDir : FPath) : FPath := rootDir ++ [".vscode"]
def settingsPathOf (rootDir : FPath) : FPath := rootDir ++ [".vscode", "settings.json"]

/-- lines 216-268 of `createVSCodeSettings`: read/merge/write the
settings file (the `.vscode` directory is already ensured) -/
def mergeSettingsFile (settingsPath : FPath) (fs1 : FS) : FS × Bool :=
  if fs1.existsSync settingsPath then
    match fs1.readFileSync settingsPath with
    | none => (fs1, false)       -- read threw (e.g. EISDIR): caught, line 248-253
    | some content =>
      -- lines 219-231: empty content skips the parse, malformed content
      -- fails it; both leave existingSettings = empty object
      let existingSettings : JSONVal :=
        match content with
        | .jsonData v => v
        | .rawData _ => .obj []
      -- line 234: a TRUTHINESS test, not a key-presence test
      let current := existingSettings.getKey "eslint.workingDirectories"
      if (current.map JSONVal.truthy).getD false then
        (fs1, false)
      else
        let merged := existingSettings.spreadMerge eslintConfigVal
        (fs1.writeFileSync settingsPath (.jsonData merged), true)
  else
    (fs1.writeFileSync settingsPath (.jsonData eslintConfigVal), true)

/-- `createVSCodeSettings()` (lines 200-269): ensure `.vscode` exists,
then read/merge/write `settings.json`; returns the updated filesystem and
the Changed flag. -/
def createVSCodeSettings (rootDir : FPath) (fs : FS) : FS × Bool :=
  let fs1 := if fs.existsSync (vscodeDirOf rootDir) then fs
             else fs.mkdirRec (vscodeDirOf rootDir)
  mergeSettingsFile (settingsPathOf rootDir) fs1

/-! ## The whole run (the script body) -/

def isDirEntry : FSEntry → Bool
  | .dir => true
  | _ => false

/-- `dir.startsWith(".")`: the name's first character is a dot -/
def startsWithDot (n : String) : Bool :=
  match n.data with
  | [] => false
  | c :: _ => c == '.'

/-- lines 75-79: immediate subdirectories (by their own dirent type),
hidden names filtered out -/
def projectsFrom (children : List (String × FSEntry)) : List String :=
  ((children.filter (fun pe => isDirEntry pe.2)).map (·.1)).filter
    (fun n => !startsWithDot n)

/-- the project scanner: what `projectDirs` is bound to (lines 75-79) -/
def projectDirsOf (fs : FS) (rootDir : FPath) : List String :=
  match fs.readdirSync rootDir with
  | .ok ch => projectsFrom ch
  | .error _ => []

structure RunResult where
  fs : FS
  stats : Stats
  settingsChanged : Bool

/-- the script body: ensure `.cursor/rules`, scan projects, mirror each
project's rule files, then merge the VS Code settings.  A top-level
`.error` models the process dying on an uncaught exception. -/
def run (force : Bool) (rootDir : FPath) (fs0 : FS) : Except Unit RunResult :=
  let rcr := rootCursorRulesDir rootDir
  let fs1 := if fs0.existsSync rcr then fs0 else fs0.mkdirRec rcr
  match fs1.readdirSync rootDir with
  | .error e => .error e
  | .ok ch =>
    let projectDirs := projectsFrom ch
    let st0 : Stats := ⟨projectDirs.length, 0, 0, 0, 0⟩
    match processProjects force rootDir projectDirs fs1 st0 with
    | .error e => .error e
    | .ok (fs2, st) =>
      let r := createVSCodeSettings rootDir fs2
      .ok ⟨r.1, st, r.2⟩

/-! ## Concrete filesystems used in the claim theorems and witnesses -/

/-- the scenario of §8: two projects, one nested rule file, no
pre-existing `.cursor` at the root -/
def fsC5 : FS := ⟨[
  (["root"], .dir),
  (["root", "projA"], .dir),
  (["root", "projA", ".cursor"], .dir),
  (["root", "projA", ".cursor", "rules"], .dir),
  (["root", "projA", ".cursor", "rules", "x.mdc"], .file (.rawData "x")),
  (["root", "projB"], .dir),
  (["root", "projB", ".cursor"], .dir),
  (["root", "projB", ".cursor", "rules"], .dir),
  (["root", "projB", ".cursor", "rules", "sub"], .dir),
  (["root", "projB", ".cursor", "rules", "sub", "y.mdc"], .file (.rawData "y"))
  ], [], [], []⟩

/-- one project whose only rule file is a dangling symlink -/
def fsC3 : FS := ⟨[
  (["root"], .dir),
  (["root", "projA"], .dir),
  (["root", "projA", ".cursor"], .dir),
  (["root", "projA", ".cursor", "rules"], .dir),
  (["root", "projA", ".cursor", "rules", "x.mdc"], .symlink ["nowhere"])
  ], [], [], []⟩

/-- projA has an unreadable subdirectory inside its rules tree; projB,
processed after projA, is perfectly healthy -/
def fsC2 : FS := ⟨[
  (["root"], .dir),
  (["root", "projA"], .dir),
  (["root", "projA", ".cursor"], .dir),
  (["root", "projA", ".cursor", "rules"], .dir),
  (["root", "projA", ".cursor", "rules", "sub"], .dir),
  (["root", "projA", ".cursor", "rules", "sub", "z.mdc"], .file (.rawData "z")),
  (["root", "projB"], .dir),
  (["root", "projB", ".cursor"], .dir),
  (["root", "projB", ".cursor", "rules"], .dir),
  (["root", "projB", ".cursor", "rules", "w.mdc"], .file (.rawData "w"))
  ], [["root", "projA", ".cursor", "rules", "sub"]], [], []⟩

/-- a settings file whose `eslint.workingDirectories` key is present with
the falsy value `false` -/
def fsC1 : FS := ⟨[
  (["root"], .dir),
  (["root", ".vscode"], .dir),
  (["root", ".vscode", "settings.json"],
    .file (.jsonData (.obj [("eslint.workingDirectories", .bool false)])))
  ], [], [], []⟩

/-- a settings file whose key is present with a truthy value -/
def fsW1 : FS := ⟨[
  (["root"], .dir),
  (["root", ".vscode"], .dir),
  (["root", ".vscode", "settings.json"],
    .file (.jsonData (.obj [("eslint.workingDirectories", .str "custom")])))
  ], [], [], []⟩

/-- a settings file with malformed content -/
def fsW6 : FS := ⟨[
  (["root"], .dir),
  (["root", ".vscode"], .dir),
  (["root", ".vscode", "settings.json"], .file (.rawData "\x7bnot json"))
  ], [], [], []⟩

/-- a target path occupied by an unrelated file -/
def fsW4 : FS := ⟨[
  (["root"], .dir),
  (["root", ".cursor"], .dir),
  (["root", ".cursor", "rules"], .dir),
  (["root", ".cursor", "rules", "projA"], .dir),
  (["root", ".cursor", "rules", "projA", "x.mdc"], .file (.rawData "old")),
  (["root", "projA"], .dir),
  (["root", "projA", ".cursor"], .dir),
  (["root", "projA", ".cursor", "rules"], .dir),
  (["root", "projA", ".cursor", "rules", "x.mdc"], .file (.rawData "new"))
  ], [], [], []⟩

/-- as `fsW4` but unlinking the occupied target is denied -/
def fsW4d : FS :=
  { fsW4 with unlinkDenied := [["root", ".cursor", "rules", "projA", "x.mdc"]] }

/-- a target path occupied by a dangling symlink -/
def fsW10 : FS := ⟨[
  (["root"], .dir),
  (["root", ".cursor"], .dir),
  (["root", ".cursor", "rules"], .dir),
  (["root", ".cursor", "rules", "projA"], .dir),
  (["root", ".cursor", "rules", "projA", "x.mdc"], .symlink ["gone"]),
  (["root", "projA"], .dir),
  (["root", "projA", ".cursor"], .dir),
  (["root", "projA", ".cursor", "rules"], .dir),
  (["root", "projA", ".cursor", "rules", "x.mdc"], .file (.rawData "new"))
  ], [], [], []⟩

/-- one project plus a stale pre-existing entry under `.cursor/rules` -/
def fsW7 : FS := ⟨[
  (["root"], .dir),
  (["root", ".cursor"], .dir),
  (["root", ".cursor", "rules"], .dir),
  (["root", ".cursor", "rules", "stale.mdc"], .file (.rawData "stale")),
  (["root", "projA"], .dir),
  (["root", "projA", ".cursor"], .dir),
  (["root", "projA", ".cursor", "rules"], .dir),
  (["root", "projA", ".cursor", "rules", "x.mdc"], .file (.rawData "x"))
  ], [], [], []⟩

/-! ## Relations used by the preservation and idempotence proofs -/

namespace FS

/-- exact entry preservation between two filesystem states -/
def PresExact (fs s : FS) : Prop :=
  ∀ p e, fs.entryAt p = some e → s.entryAt p = some e

/-- entry preservation that allows a file's content to change in place
(the settings write overwrites `.vscode/settings.json`) -/
def PresWeak (fs s : FS) : Prop :=
  ∀ p e, fs.entryAt p = some e →
    s.entryAt p = some e ∨
    ∃ d1 d2, e = .file d1 ∧ s.entryAt p = some (.file d2)

/-- no dangling or cyclic symlinks: every symlink entry resolves -/
def NoD (s : FS) : Prop :=
  ∀ p t, s.entryAt p = some (.symlink t) → s.existsSync p = true

/-- decidable check of `NoD` over the (finite) entry list -/
def noDanglingB (s : FS) : Bool :=
  s.entries.all fun pe =>
    match pe.2 with
    | .symlink _ => s.existsSync pe.1
    | _ => true

def GoodState (s : FS) : Prop := s.WF ∧ s.NoD

end FS

/-- the paths at which a no-force run may create or rewrite entries:
ancestor prefixes of the root, and the root's `.cursor` and `.vscode`
subtrees -/
def RegionCV (rootDir : FPath) (q : FPath) : Prop :=
  q <+: rootDir ∨ (rootDir ++ [".cursor"]) <+: q ∨ (rootDir ++ [".vscode"]) <+: q

/-- what one no-force run step preserves, relative to `rootDir` -/
def StepOK (rootDir : FPath) (fs s : FS) : Prop :=
  s.unreadable = fs.unreadable ∧
  s.unlinkDenied = fs.unlinkDenied ∧
  s.symlinkDenied = fs.symlinkDenied ∧
  fs.entries.length ≤ s.entries.length ∧
  FS.PresWeak fs s ∧
  (∀ p, ¬ RegionCV rootDir p → s.entryAt p = fs.entryAt p) ∧
  (∀ d, d ≠ vscodeDirOf rootDir →
    ∃ extra, s.childrenOf d = extra ++ fs.childrenOf d ∧
      ∀ x ∈ extra, RegionCV rootDir (d ++ [x.1]))

/-- add `k` all-skipped rule files to the statistics -/
def addSkips (st : Stats) (k : Nat) : Stats :=
  { st with totalRuleFiles := st.totalRuleFiles + k, skipped := st.skipped + k }

/-! ## Basic lemmas about the filesystem model -/

namespace FS

theorem entryAt_insert_self (fs : FS) (p : FPath) (e : FSEntry) :
    (fs.insert p e).entryAt p = some e := by
  simp [insert, entryAt, List.find?_cons]

theorem find?_key_filter_ne {l : List (FPath × FSEntry)} {p q : FPath} (h : q ≠ p) :
    (l.filter (fun pe => !(pe.1 == p))).find? (fun pe => pe.1 == q) =
      l.find? (fun pe => pe.1 == q) := by
  induction l with
  | nil => rfl
  | cons a t ih =>
    rw [List.filter_cons]
    by_cases hap : a.1 = p
    · have hq : (a.1 == q) = false := by
        rw [beq_eq_false_iff_ne, hap]
        exact fun hqq => h hqq.symm
    
      have hcond : (!(a.1 == p)) = false := by simp [hap]
      rw [hcond, if_neg (by simp), ih, List.find?_cons_of_neg _ (by simp [hq])]
    · have hcond : (!(a.1 == p)) = true := by simp [hap]
      rw [hcond, if_pos rfl]
      by_cases haq : a.1 = q
      · rw [List.find?_cons_of_pos _ (by simp [haq]), List.find?_cons_of_pos _ (by simp [haq])]
      · rw [List.find?_cons_of_neg _ (by simp [haq]), List.find?_cons_of_neg _ (by simp [haq]), ih]

theorem entryAt_insert_ne (fs : FS) {p q : FPath} (e : FSEntry) (h : q ≠ p) :
    (fs.insert p e).entryAt q = fs.entryAt q := by
  have hpq : (p == q) = false := by
    simp
    exact fun hh => h hh.symm
  simp [insert, entryAt, List.find?_cons, hpq, find?_key_filter_ne h]

theorem entryAt_remove_self (fs : FS) (p : FPath) :
    (fs.remove p).entryAt p = none := by
  simp only [remove, entryAt]
  rw [List.find?_eq_none.mpr]
  · rfl
  · intro a ha
    have := List.of_mem_filter ha
    simp at this ⊢
    exact fun hq => absurd hq this

theorem entryAt_remove_ne (fs : FS) {p q : FPath} (h : q ≠ p) :
    (fs.remove p).entryAt q = fs.entryAt q := by
  simp [remove, entryAt, find?_key_filter_ne h]

/-- an entry of any non-symlink kind makes the path stat-visible -/
theorem statEntry_of_file (fs : FS) {p : FPath} {d : FileData}
    (h : fs.entryAt p = some (.file d)) : fs.statEntry p = some (.file d) := by
  simp [statEntry, resFuel, resolveN, h]

theorem statEntry_of_dir (fs : FS) {p : FPath}
    (h : fs.entryAt p = some .dir) : fs.statEntry p = some .dir := by
  simp [statEntry, resFuel, resolveN, h]

theorem statEntry_of_none (fs : FS) {p : FPath}
    (h : fs.entryAt p = none) : fs.statEntry p = none := by
  simp [statEntry, resFuel, resolveN, h]

theorem existsSync_of_file (fs : FS) {p : FPath} {d : FileData}
    (h : fs.entryAt p = some (.file d)) : fs.existsSync p = true := by
  simp [existsSync, statEntry_of_file fs h]

theorem existsSync_of_dir (fs : FS) {p : FPath}
    (h : fs.entryAt p = some .dir) : fs.existsSync p = true := by
  simp [existsSync, statEntry_of_dir fs h]

theorem existsSync_of_none (fs : FS) {p : FPath}
    (h : fs.entryAt p = none) : fs.existsSync p = false := by
  simp [existsSync, statEntry_of_none fs h]

theorem entry_isSome_of_existsSync (fs : FS) {p : FPath}
    (h : fs.existsSync p = true) : (fs.entryAt p).isSome := by
  by_contra hn
  rw [Option.not_isSome_iff_eq_none] at hn
  rw [existsSync_of_none fs hn] at h
  exact Bool.false_ne_true h

theorem statIsDir_of_dir (fs : FS) {p : FPath}
    (h : fs.entryAt p = some .dir) : fs.statIsDir p = true := by
  simp [statIsDir, statEntry_of_dir fs h]

end FS

namespace FS

theorem mkdirRec_eq_foldl (fs : FS) (p : FPath) :
    fs.mkdirRec p = (prefixesOf p).foldl mkdirStep fs := rfl

theorem mkdirStep_pres (s : FS) (q : FPath) {p : FPath} {e : FSEntry}
    (h : s.entryAt p = some e) : (mkdirStep s q).entryAt p = some e := by
  unfold mkdirStep
  split
  · exact h
  · rename_i hq
    have : p ≠ q := by
      intro hpq
      rw [hpq] at h
      simp [h] at hq
    rw [entryAt_insert_ne _ _ this]
    exact h

theorem foldl_mkdirStep_pres (L : List FPath) :
    ∀ (s : FS) {p : FPath} {e : FSEntry}, s.entryAt p = some e →
      (L.foldl mkdirStep s).entryAt p = some e := by
  induction L with
  | nil => intro s p e h; exact h
  | cons a t ih =>
    intro s p e h
    exact ih _ (mkdirStep_pres s a h)

theorem mkdirRec_pres (fs : FS) (q : FPath) {p : FPath} {e : FSEntry}
    (h : fs.entryAt p = some e) : (fs.mkdirRec q).entryAt p = some e :=
  foldl_mkdirStep_pres _ _ h

theorem foldl_mkdirStep_mem (L : List FPath) :
    ∀ (s : FS) {p : FPath}, p ∈ L → s.entryAt p = none →
      (L.foldl mkdirStep s).entryAt p = some .dir := by
  induction L with
  | nil => intro s p hmem; exact absurd hmem (List.not_mem_nil p)
  | cons a t ih =>
    intro s p hmem hnone
    by_cases hap : p = a
    · subst hap
      have hstep : (mkdirStep s p).entryAt p = some .dir := by
        unfold mkdirStep
        rw [if_neg (by simp [hnone])]
        exact entryAt_insert_self s p .dir
      exact foldl_mkdirStep_pres t _ hstep
    · rcases List.mem_cons.mp hmem with hpa | hpt
      · exact absurd hpa hap
      · have hstep : (mkdirStep s a).entryAt p = none := by
        
          unfold mkdirStep
          split
          · exact hnone
          · rw [entryAt_insert_ne _ _ hap]; exact hnone
        exact ih _ hpt hstep

theorem self_mem_prefixesOf (p : FPath) : p ∈ prefixesOf p := by
  unfold prefixesOf
  exact List.mem_map.mpr ⟨p.length, List.mem_range.mpr (Nat.lt_succ_self _), List.take_length p⟩

/-- if `p` had no entry, `mkdirRec p` leaves a directory entry at `p` -/
theorem mkdirRec_entry_self (fs : FS) (p : FPath) (h : fs.entryAt p = none) :
    (fs.mkdirRec p).entryAt p = some .dir :=
  foldl_mkdirStep_mem _ _ (self_mem_prefixesOf p) h

end FS

/-! ## Claim C8: hidden directories are never classified as projects -/

/-- C8: for every immediate subdirectory of the workspace root whose name
begins with a dot, the project scanner never classifies it as a Project:
it does not appear in `projectDirs`, hence no symlinks are created for it
and it is not counted in the project total. -/
theorem C8_hidden_excluded (fs : FS) (rootDir : FPath) (name : String)
    (h : startsWithDot name = true) : name ∉ projectDirsOf fs rootDir := by
  unfold projectDirsOf
  cases hrd : fs.readdirSync rootDir with
  | error e => exact List.not_mem_nil name
  | ok ch =>
    unfold projectsFrom
    intro hmem
    have := (List.mem_filter.mp hmem).2
    rw [h] at this
    exact Bool.false_ne_true this

theorem C8_hidden_excluded_witness :
    startsWithDot ".git" = true ∧ ".git" ∉ projectDirsOf fsC5 ["root"] :=
  ⟨by decide, C8_hidden_excluded fsC5 ["root"] ".git" (by decide)⟩

/-! ## Claim C5: the two-project scenario -/

/-- C5: on the §8 scenario (projA/.cursor/rules/x.mdc,
projB/.cursor/rules/sub/y.mdc, no pre-existing .cursor at the root) one
run reports 2 projects, 2 rule files, 2 created, 0 skipped, 0 failed, and
each discovered rule file has a symlink at
root/.cursor/rules/(project)/(relativePath) that resolves to its source. -/
theorem C5_scenario : ∃ f : FS,
    run false ["root"] fsC5 = .ok ⟨f, ⟨2, 2, 2, 0, 0⟩, true⟩ ∧
    f.entryAt ["root", ".cursor", "rules", "projA", "x.mdc"]
      = some (.symlink ["root", "projA", ".cursor", "rules", "x.mdc"]) ∧
    f.existsSync ["root", ".cursor", "rules", "projA", "x.mdc"] = true ∧
    f.entryAt ["root", ".cursor", "rules", "projB", "sub", "y.mdc"]
      = some (.symlink ["root", "projB", ".cursor", "rules", "sub", "y.mdc"]) ∧
    f.existsSync ["root", ".cursor", "rules", "projB", "sub", "y.mdc"] = true :=
  ⟨_, rfl, rfl, rfl, rfl, rfl⟩

/-! ## Claim C2: enumeration errors abort the run (counterexample) -/

/-- C2 counterexample: with projA's rules subtree containing an
unreadable directory, the enumeration error is NOT caught: the whole run
aborts (models the script dying on the uncaught exception), so the error
is neither counted in `failed` nor does processing continue with projB. -/
theorem C2_cex : run false ["root"] fsC2 = .error () := rfl

/-! ## Claim C3: idempotence (counterexample: dangling rule source) -/

/-- C3 counterexample: projA's only rule file is a dangling symlink.  The
first run succeeds (1 created, 0 failed); the second run, on the state the
first one produced, is NOT all-skipped: `existsSync` resolves the created
link chain to nothing, the script re-attempts `symlinkSync`, which throws
EEXIST, so the second run reports 0 skipped and 1 failed. -/
theorem C3_cex : ∃ f1 f2 : FS,
    run false ["root"] fsC3 = .ok ⟨f1, ⟨1, 1, 1, 0, 0⟩, true⟩ ∧
    run false ["root"] f1 = .ok ⟨f2, ⟨1, 1, 0, 0, 1⟩, false⟩ :=
  ⟨_, _, rfl, rfl⟩

/-! ## Claim C1: settings key present (counterexample: falsy value) -/

/-- C1 counterexample: with `eslint.workingDirectories` present but set
to `false`, the merger replaces the value and returns Changed=true — the
line-234 check is a truthiness test, not a key-presence test. -/
theorem C1_cex :
    (createVSCodeSettings ["root"] fsC1).2 = true ∧
    (createVSCodeSettings ["root"] fsC1).1.entryAt ["root", ".vscode", "settings.json"]
      = some (.file (.jsonData eslintConfigVal)) :=
  ⟨rfl, rfl⟩

/-! ## Claim C4: force semantics of the reconciler -/

/-- C4: when the existence check sees an entry at the target
(`existsSync`, which resolves symlinks): with force, the entry is
unlinked first and only then is the symlink created — if the unlink is
denied the outcome is Failed and no link creation is attempted (the state
is returned untouched); without force the target is left untouched and
the outcome is Skipped. -/
theorem C4_force_semantics (fs : FS) (rulesDir tpd f tgt : FPath)
    (htgt : tgt = tpd ++ f.drop rulesDir.length)
    (hparent : fs.existsSync tgt.dropLast = true)
    (hex : fs.existsSync tgt = true) :
    (fs.unlinkDenied.contains tgt = true →
       processRuleFile true rulesDir tpd fs f = (fs, .failed)) ∧
    (fs.unlinkDenied.contains tgt = false →
     fs.symlinkDenied.contains tgt = false →
       processRuleFile true rulesDir tpd fs f
         = ((fs.remove tgt).insert tgt (.symlink f), .created)) ∧
    processRuleFile false rulesDir tpd fs f = (fs, .skipped) := by
  subst htgt
  refine ⟨fun hden => ?_, fun hden hsden => ?_, ?_⟩
  · simp only [processRuleFile, hparent, if_true, hex, Bool.and_self, FS.unlinkSync, hden,
      if_true, if_pos]
  · have hsome : (fs.entryAt (tpd ++ f.drop rulesDir.length)).isSome :=
      fs.entry_isSome_of_existsSync hex
    have hrm : (fs.remove (tpd ++ f.drop rulesDir.length)).entryAt
        (tpd ++ f.drop rulesDir.length) = none := fs.entryAt_remove_self _
    have hrmex : (fs.remove (tpd ++ f.drop rulesDir.length)).existsSync
        (tpd ++ f.drop rulesDir.length) = false :=
      FS.existsSync_of_none _ hrm
    simp only [processRuleFile, hparent, if_true, hex, Bool.and_self, FS.unlinkSync, hden,
      Bool.false_eq_true, if_false, hsome, if_true, attemptLink, hrmex, Bool.not_false,
      FS.symlinkSync, hrm, Option.isSome_none]
    have hd2 : ((fs.remove (tpd ++ f.drop rulesDir.length)).symlinkDenied.contains
        (tpd ++ f.drop rulesDir.length)) = false := hsden
    simp only [hd2, Bool.false_eq_true, if_false]
  · simp only [processRuleFile, hparent, if_true, Bool.false_and, Bool.false_eq_true,
      if_false, attemptLink, hex, Bool.not_true]

theorem C4_force_semantics_witness :
    processRuleFile true ["root", "projA", ".cursor", "rules"]
        ["root", ".cursor", "rules", "projA"] fsW4d
        ["root", "projA", ".cursor", "rules", "x.mdc"] = (fsW4d, .failed) ∧
    processRuleFile true ["root", "projA", ".cursor", "rules"]
        ["root", ".cursor", "rules", "projA"] fsW4
        ["root", "projA", ".cursor", "rules", "x.mdc"]
      = ((fsW4.remove ["root", ".cursor", "rules", "projA", "x.mdc"]).insert
           ["root", ".cursor", "rules", "projA", "x.mdc"]
           (.symlink ["root", "projA", ".cursor", "rules", "x.mdc"]), .created) ∧
    processRuleFile false ["root", "projA", ".cursor", "rules"]
        ["root", ".cursor", "rules", "projA"] fsW4
        ["root", "projA", ".cursor", "rules", "x.mdc"] = (fsW4, .skipped) :=
  ⟨(C4_force_semantics fsW4d ["root", "projA", ".cursor", "rules"]
      ["root", ".cursor", "rules", "projA"]
      ["root", "projA", ".cursor", "rules", "x.mdc"]
      ["root", ".cursor", "rules", "projA", "x.mdc"] rfl rfl rfl).1 rfl,
   (C4_force_semantics fsW4 ["root", "projA", ".cursor", "rules"]
      ["root", ".cursor", "rules", "projA"]
      ["root", "projA", ".cursor", "rules", "x.mdc"]
      ["root", ".cursor", "rules", "projA", "x.mdc"] rfl rfl rfl).2.1 rfl rfl,
   (C4_force_semantics fsW4 ["root", "projA", ".cursor", "rules"]
      ["root", ".cursor", "rules", "projA"]
      ["root", "projA", ".cursor", "rules", "x.mdc"]
      ["root", ".cursor", "rules", "projA", "x.mdc"] rfl rfl rfl).2.2⟩

/-! ## Claim C10: dangling symlink at the target path -/

/-- C10: when the target path is occupied by a dangling symlink, the
existence check (which resolves the link) reports the target absent; for
either force setting the entry is not unlinked, a link creation is
attempted, it fails with EEXIST, and the outcome is Failed (the state is
unchanged) — in particular the outcome is never Skipped. -/
theorem C10_dangling_target (force : Bool) (fs : FS) (rulesDir tpd f t tgt : FPath)
    (htgt : tgt = tpd ++ f.drop rulesDir.length)
    (hparent : fs.existsSync tgt.dropLast = true)
    (hentry : fs.entryAt tgt = some (.symlink t))
    (hdangling : fs.existsSync tgt = false) :
    processRuleFile force rulesDir tpd fs f = (fs, .failed) := by
  subst htgt
  have hsome : (fs.entryAt (tpd ++ f.drop rulesDir.length)).isSome = true := by
    rw [hentry]; rfl
  simp only [processRuleFile, hparent, if_true, hdangling, Bool.and_false,
    Bool.false_eq_true, if_false, attemptLink, Bool.not_false, FS.symlinkSync,
    hsome, if_true]

theorem C10_dangling_target_witness :
    processRuleFile true ["root", "projA", ".cursor", "rules"]
        ["root", ".cursor", "rules", "projA"] fsW10
        ["root", "projA", ".cursor", "rules", "x.mdc"] = (fsW10, .failed) ∧
    processRuleFile false ["root", "projA", ".cursor", "rules"]
        ["root", ".cursor", "rules", "projA"] fsW10
        ["root", "projA", ".cursor", "rules", "x.mdc"] = (fsW10, .failed) :=
  ⟨C10_dangling_target true fsW10 ["root", "projA", ".cursor", "rules"]
      ["root", ".cursor", "rules", "projA"]
      ["root", "projA", ".cursor", "rules", "x.mdc"] ["gone"]
      ["root", ".cursor", "rules", "projA", "x.mdc"] rfl rfl rfl rfl,
   C10_dangling_target false fsW10 ["root", "projA", ".cursor", "rules"]
      ["root", ".cursor", "rules", "projA"]
      ["root", "projA", ".cursor", "rules", "x.mdc"] ["gone"]
      ["root", ".cursor", "rules", "projA", "x.mdc"] rfl rfl rfl rfl⟩

/-! ## Claims C1 and C6: the settings merger -/

theorem mergeSettingsFile_truthy (sp : FPath) (g : FS) (j v : JSONVal)
    (hentry : g.entryAt sp = some (.file (.jsonData j)))
    (hkey : j.getKey "eslint.workingDirectories" = some v)
    (htruthy : v.truthy = true) :
    mergeSettingsFile sp g = (g, false) := by
  have hex : g.existsSync sp = true := FS.existsSync_of_file _ hentry
  have hread : g.readFileSync sp = some (.jsonData j) := by
    simp [FS.readFileSync, hentry]
  simp only [mergeSettingsFile, hex, if_true, hread, hkey]
  simp [htruthy]

/-- the vscode-directory ensure step preserves any settings-file entry -/
theorem ensureVscode_entry (rootDir : FPath) (fs : FS) {e : FSEntry}
    (hentry : fs.entryAt (settingsPathOf rootDir) = some e) :
    (if fs.existsSync (vscodeDirOf rootDir) then fs
     else fs.mkdirRec (vscodeDirOf rootDir)).entryAt (settingsPathOf rootDir)
      = some e := by
  split
  · exact hentry
  · exact FS.mkdirRec_pres fs _ hentry

/-- C1 (amended): if the settings file exists, parses as JSON, and the
key `eslint.workingDirectories` is present with a TRUTHY value, the
merger makes no change to the file and returns Changed=false.  (A falsy
value — false, 0, null, "" — is instead treated as absent and
overwritten; see `C1_cex`.) -/
theorem C1_truthy_no_change (rootDir : FPath) (fs : FS) (j v : JSONVal)
    (hentry : fs.entryAt (settingsPathOf rootDir) = some (.file (.jsonData j)))
    (hkey : j.getKey "eslint.workingDirectories" = some v)
    (htruthy : v.truthy = true) :
    (createVSCodeSettings rootDir fs).2 = false ∧
    (createVSCodeSettings rootDir fs).1.entryAt (settingsPathOf rootDir)
      = some (.file (.jsonData j)) := by
  have hp := ensureVscode_entry rootDir fs hentry
  unfold createVSCodeSettings
  rw [mergeSettingsFile_truthy _ _ j v hp hkey htruthy]
  exact ⟨rfl, hp⟩

theorem C1_truthy_no_change_witness :
    (createVSCodeSettings ["root"] fsW1).2 = false ∧
    (createVSCodeSettings ["root"] fsW1).1.entryAt ["root", ".vscode", "settings.json"]
      = some (.file (.jsonData (.obj [("eslint.workingDirectories", .str "custom")]))) :=
  C1_truthy_no_change ["root"] fsW1
    (.obj [("eslint.workingDirectories", .str "custom")]) (.str "custom")
    rfl rfl rfl

/-- C6: if the settings file exists but its content is empty or fails to
parse as JSON, the merger writes a file containing only the mapping
`eslint.workingDirectories : [ (mode : auto) ]`, discarding all prior
content, and returns Changed=true. -/
theorem C6_lossy_overwrite (rootDir : FPath) (fs : FS) (s : String)
    (hentry : fs.entryAt (settingsPathOf rootDir) = some (.file (.rawData s))) :
    (createVSCodeSettings rootDir fs).2 = true ∧
    (createVSCodeSettings rootDir fs).1.entryAt (settingsPathOf rootDir)
      = some (.file (.jsonData eslintConfigVal)) := by
  have hp := ensureVscode_entry rootDir fs hentry
  unfold createVSCodeSettings
  set g := if fs.existsSync (vscodeDirOf rootDir) then fs
           else fs.mkdirRec (vscodeDirOf rootDir) with hg
  have hex : g.existsSync (settingsPathOf rootDir) = true := FS.existsSync_of_file _ hp
  have hread : g.readFileSync (settingsPathOf rootDir) = some (.rawData s) := by
    simp [FS.readFileSync, hp]
  have hmerged : (JSONVal.obj []).spreadMerge eslintConfigVal = eslintConfigVal := rfl
  simp only [mergeSettingsFile, hex, if_true, hread, JSONVal.getKey, lookupField,
    List.find?_nil, Option.map_none, Option.getD_none, Bool.false_eq_true, if_false,
    hmerged, FS.writeFileSync]
  exact ⟨rfl, FS.entryAt_insert_self g _ (.file (.jsonData eslintConfigVal)) ⟩

theorem C6_lossy_overwrite_witness :
    (createVSCodeSettings ["root"] fsW6).2 = true ∧
    (createVSCodeSettings ["root"] fsW6).1.entryAt ["root", ".vscode", "settings.json"]
      = some (.file (.jsonData eslintConfigVal)) :=
  C6_lossy_overwrite ["root"] fsW6 "\x7bnot json" rfl

/-! ## Claim C9: the traversal terminates (symlinked dirs are not followed) -/

theorem dropLast_concat_getLastD {p : FPath} (h : p ≠ []) :
    p.dropLast ++ [p.getLastD ""] = p := by
  induction p with
  | nil => exact absurd rfl h
  | cons a t ih =>
    cases t with
    | nil => rfl
    | cons b u =>
      have hne : (b :: u : FPath) ≠ [] := by simp
      have := ih hne
      simp only [List.dropLast_cons₂, List.cons_append, List.cons.injEq, true_and]
      simpa using this

theorem childrenOf_mem {fs : FS} {d : FPath} {name : String} {ety : FSEntry}
    (h : (name, ety) ∈ fs.childrenOf d) : (d ++ [name], ety) ∈ fs.entries := by
  unfold FS.childrenOf at h
  obtain ⟨pe, hpe_mem, hpe_eq⟩ := List.mem_filterMap.mp h
  by_cases hc : (!pe.1.isEmpty && (pe.1.dropLast == d)) = true
  · rw [if_pos hc] at hpe_eq
    obtain ⟨h1, h2⟩ := Prod.mk.injEq .. ▸ Option.some.injEq .. ▸ hpe_eq
    have hne : pe.1 ≠ [] := by
      intro hnil
      simp [hnil] at hc
    have hdl : pe.1.dropLast = d := by
      have := (Bool.and_eq_true _ _).mp hc
      exact beq_iff_eq.mp this.2
    have hfull : pe.1 = d ++ [name] := by
      rw [← hdl, ← h1]
      exact (dropLast_concat_getLastD hne).symm
    have : pe = (d ++ [name], ety) := by
      cases pe
      simp only at h1 h2 hfull
      simp [hfull, h2]
    rw [← this]
    exact hpe_mem
  · rw [if_neg hc] at hpe_eq
    exact absurd hpe_eq (by simp)

theorem foldr_max_mem {l : List (FPath × FSEntry)} {pe : FPath × FSEntry}
    (h : pe ∈ l) :
    pe.1.length ≤ l.foldr (fun q m => max q.1.length m) 0 := by
  induction l with
  | nil => exact absurd h (List.not_mem_nil pe)
  | cons a t ih =>
    rcases List.mem_cons.mp h with rfl | ht
    · exact Nat.le_max_left _ _
    · exact (ih ht).trans (Nat.le_max_right _ _)

theorem entry_length_le_maxLen {fs : FS} {pe : FPath × FSEntry}
    (h : pe ∈ fs.entries) : pe.1.length ≤ fs.maxLen :=
  foldr_max_mem h

theorem traverseList_isSome (recurse : FPath → Option (Except Unit (List FPath)))
    (d : FPath) (es : List (String × FSEntry))
    (h : ∀ name ety, (name, ety) ∈ es → ety = .dir → (recurse (d ++ [name])).isSome) :
    (traverseList recurse d es).isSome := by
  induction es with
  | nil => rfl
  | cons a rest ih =>
    obtain ⟨name, ety⟩ := a
    have hrest : (traverseList recurse d rest).isSome := by
      apply ih
      intro n e hm hd
      exact h n e (List.mem_cons_of_mem _ hm) hd
    cases ety with
    | dir =>
      have hrec := h name .dir (List.mem_cons_self _ _) rfl
      cases hr : recurse (d ++ [name]) with
      | none => rw [hr] at hrec; exact absurd hrec (by simp)
      | some x =>
        cases x with
        | error e => simp [traverseList, hr]
        | ok sub =>
          cases hrl : traverseList recurse d rest with
          | none => rw [hrl] at hrest; exact absurd hrest (by simp)
          | some y => cases y with
            | error e2 => simp [traverseList, hr, hrl]
            | ok restFiles => simp [traverseList, hr, hrl]
    | file data =>
      cases hrl : traverseList recurse d rest with
      | none => rw [hrl] at hrest; exact absurd hrest (by simp)
      | some y => cases y with
        | error e2 => simp [traverseList, hrl]
        | ok restFiles => simp [traverseList, hrl]
    | symlink t =>
      cases hrl : traverseList recurse d rest with
      | none => rw [hrl] at hrest; exact absurd hrest (by simp)
      | some y => cases y with
        | error e2 => simp [traverseList, hrl]
        | ok restFiles => simp [traverseList, hrl]

theorem readdirSync_ok_eq {fs : FS} {d : FPath} {es : List (String × FSEntry)}
    (h : fs.readdirSync d = .ok es) : es = fs.childrenOf d := by
  unfold FS.readdirSync at h
  split at h
  · exact absurd h (by simp)
  · split at h
    · injection h with h2
      exact h2.symm
    · exact absurd h (by simp)

theorem traverseFuel_isSome (fs : FS) : ∀ (n : Nat) (d : FPath),
    fs.maxLen + 1 ≤ n + d.length → 1 ≤ n → (fs.traverseFuel n d).isSome := by
  intro n
  induction n with
  | zero => intro d _ h1; exact absurd h1 (by omega)
  | succ n ih =>
    intro d hb _
    rw [FS.traverseFuel]
    cases hrd : fs.readdirSync d with
    | error e => simp [hrd]
    | ok entries =>
      simp only []
      apply traverseList_isSome
      intro name ety hmem hdir
      have hch : (d ++ [name], ety) ∈ fs.entries :=
        childrenOf_mem (readdirSync_ok_eq hrd ▸ hmem)
      have hlen : d.length + 1 ≤ fs.maxLen := by
        have := entry_length_le_maxLen hch
        simpa using this
      apply ih
      · rw [List.length_append, List.length_cons, List.length_nil]
        omega
      · omega

/-- C9: the recursive enumeration never follows a symbolic link to a
directory (a dirent is classified by its own type), so on EVERY finite
filesystem — including ones whose symlink entries form cycles — the
unbounded recursion of `traverse` completes within `maxLen + 1` nesting
levels: the fuel-indexed traversal at the fuel `getAllFiles` uses never
runs out, and `getAllFiles` is its value. -/
theorem C9_traversal_terminates (fs : FS) (d : FPath) :
    fs.traverseFuel fs.depthFuel d = some (fs.getAllFiles d) := by
  have h : (fs.traverseFuel fs.depthFuel d).isSome := by
    apply traverseFuel_isSome
    · unfold FS.depthFuel; omega
    · unfold FS.depthFuel; omega
  obtain ⟨r, hr⟩ := Option.isSome_iff_exists.mp h
  rw [hr]
  unfold FS.getAllFiles
  rw [hr]
  rfl

/-! ## Claim C7: without force, no existing entry is ever removed or changed

The no-force run performs only `mkdirSync` (inserts directories at
entry-free paths), `symlinkSync` (guarded by EEXIST: inserts at
entry-free paths), and the settings write at `.vscode/settings.json`.
We show exact preservation of every pre-existing entry at every path
other than the settings path. -/

namespace FS

theorem insert_fresh_pres {fs : FS} {q : FPath} (e : FSEntry)
    (hq : fs.entryAt q = none) {p : FPath} {e0 : FSEntry}
    (hp : fs.entryAt p = some e0) : (fs.insert q e).entryAt p = some e0 := by
  have hne : p ≠ q := by
    intro hpq
    rw [hpq, hq] at hp
    exact Option.noConfusion hp
  rw [entryAt_insert_ne _ _ hne]
  exact hp

end FS

theorem symlinkSync_ok_pres {fs fs2 : FS} {src tgt : FPath}
    (h : fs.symlinkSync src tgt = .ok fs2) {p : FPath} {e0 : FSEntry}
    (hp : fs.entryAt p = some e0) : fs2.entryAt p = some e0 := by
  unfold FS.symlinkSync at h
  split at h
  · exact absurd h (by simp)
  · split at h
    · exact absurd h (by simp)
    · injection h with h2
      rw [← h2]
      rename_i hns _
      exact FS.insert_fresh_pres _ (Option.not_isSome_iff_eq_none.mp (by simpa using hns)) hp

theorem attemptLink_pres (fs : FS) (src tgt : FPath) {p : FPath} {e0 : FSEntry}
    (hp : fs.entryAt p = some e0) :
    ((attemptLink fs src tgt).1).entryAt p = some e0 := by
  unfold attemptLink
  split
  · cases hs : fs.symlinkSync src tgt with
    | ok fs2 => exact symlinkSync_ok_pres hs hp
    | error e => exact hp
  · exact hp

theorem processRuleFile_false_pres (rd tpd : FPath) (fs : FS) (f : FPath)
    {p : FPath} {e0 : FSEntry} (hp : fs.entryAt p = some e0) :
    ((processRuleFile false rd tpd fs f).1).entryAt p = some e0 := by
  unfold processRuleFile
  simp only [Bool.false_and, Bool.false_eq_true, if_false]
  apply attemptLink_pres
  split
  · exact hp
  · exact FS.mkdirRec_pres fs _ hp

theorem processRuleFiles_false_pres (rd tpd : FPath) (files : List FPath) :
    ∀ (fs : FS) (st : Stats) {p : FPath} {e0 : FSEntry}, fs.entryAt p = some e0 →
      ((processRuleFiles false rd tpd files fs st).1).entryAt p = some e0 := by
  induction files with
  | nil => intro fs st p e0 hp; exact hp
  | cons f rest ih =>
    intro fs st p e0 hp
    exact ih _ _ (processRuleFile_false_pres rd tpd fs f hp)

theorem processProject_false_pres (rootDir : FPath) (fs : FS) (st : Stats)
    (proj : String) {r : FS × Stats}
    (hr : processProject false rootDir fs st proj = .ok r)
    {p : FPath} {e0 : FSEntry} (hp : fs.entryAt p = some e0) :
    r.1.entryAt p = some e0 := by
  simp only [processProject] at hr
  split at hr
  · split at hr
    · split at hr
      · exact absurd hr (by simp)
      · rename_i heq
        injection hr with hr2
        rw [← hr2]
        apply processRuleFiles_false_pres
        split
        · exact hp
        · exact FS.mkdirRec_pres fs _ hp
    · injection hr with hr2
      rw [← hr2]
      exact hp
  · injection hr with hr2
    rw [← hr2]
    exact hp

theorem processProjects_false_pres (rootDir : FPath) (projs : List String) :
    ∀ (fs : FS) (st : Stats) {r : FS × Stats},
      processProjects false rootDir projs fs st = .ok r →
      ∀ {p : FPath} {e0 : FSEntry}, fs.entryAt p = some e0 →
        r.1.entryAt p = some e0 := by
  induction projs with
  | nil =>
    intro fs st r hr p e0 hp
    injection hr with hr2
    rw [← hr2]
    exact hp
  | cons proj rest ih =>
    intro fs st r hr p e0 hp
    unfold processProjects at hr
    split at hr
    · exact absurd hr (by simp)
    · rename_i r1 heq
      exact ih _ _ hr (processProject_false_pres rootDir fs st proj heq hp)

theorem createVSCodeSettings_pres_ne (rootDir : FPath) (fs : FS)
    {p : FPath} (hne : p ≠ settingsPathOf rootDir) {e0 : FSEntry}
    (hp : fs.entryAt p = some e0) :
    ((createVSCodeSettings rootDir fs).1).entryAt p = some e0 := by
  unfold createVSCodeSettings
  have hp1 : (if fs.existsSync (vscodeDirOf rootDir) then fs
              else fs.mkdirRec (vscodeDirOf rootDir)).entryAt p = some e0 := by
    split
    · exact hp
    · exact FS.mkdirRec_pres fs _ hp
  generalize (if fs.existsSync (vscodeDirOf rootDir) then fs
              else fs.mkdirRec (vscodeDirOf rootDir)) = g at hp1
  simp only [mergeSettingsFile]
  split
  · split
    · exact hp1
    · split
      · exact hp1
      · unfold FS.writeFileSync
        rw [FS.entryAt_insert_ne _ _ hne]
        exact hp1
  · unfold FS.writeFileSync
    rw [FS.entryAt_insert_ne _ _ hne]
    exact hp1

theorem run_false_pres (rootDir : FPath) (fs : FS) {res : RunResult}
    (hrun : run false rootDir fs = .ok res)
    {p : FPath} (hne : p ≠ settingsPathOf rootDir) {e0 : FSEntry}
    (hp : fs.entryAt p = some e0) : res.fs.entryAt p = some e0 := by
  simp only [run] at hrun
  have hp1 : (if fs.existsSync (rootCursorRulesDir rootDir) then fs
              else fs.mkdirRec (rootCursorRulesDir rootDir)).entryAt p = some e0 := by
    split
    · exact hp
    · exact FS.mkdirRec_pres fs _ hp
  generalize hg : (if fs.existsSync (rootCursorRulesDir rootDir) then fs
              else fs.mkdirRec (rootCursorRulesDir rootDir)) = g at hrun hp1
  split at hrun
  · exact absurd hrun (by simp)
  · split at hrun
    · exact absurd hrun (by simp)
    · rename_i fs2st heq
      injection hrun with hr2
      rw [← hr2]
      exact createVSCodeSettings_pres_ne rootDir _ hne
        (processProjects_false_pres rootDir _ _ _ heq hp1)

theorem ne_settingsPath_of_under_rules {rootDir p : FPath}
    (h : rootCursorRulesDir rootDir <+: p) : p ≠ settingsPathOf rootDir := by
  intro hpe
  subst hpe
  obtain ⟨t, ht⟩ := h
  unfold rootCursorRulesDir settingsPathOf at ht
  rw [List.append_assoc] at ht
  have h2 := List.append_cancel_left ht
  simp only [List.cons_append] at h2
  injection h2 with h3 _
  exact absurd h3 (by decide)

/-- C7: with force not set, a (successful) run never removes or alters
any pre-existing filesystem entry under root/.cursor/rules: whatever
entry a path in that subtree had before the run, it has the same entry
after the run, whether or not it corresponds to a discovered rule file. -/
theorem C7_no_removal (rootDir : FPath) (fs : FS) (res : RunResult)
    (hrun : run false rootDir fs = .ok res) (p : FPath) (e : FSEntry)
    (hpre : rootCursorRulesDir rootDir <+: p)
    (hentry : fs.entryAt p = some e) :
    res.fs.entryAt p = some e :=
  run_false_pres rootDir fs hrun (ne_settingsPath_of_under_rules hpre) hentry

theorem C7_no_removal_witness :
    (match run false ["root"] fsW7 with
     | .ok r => r.fs.entryAt ["root", ".cursor", "rules", "stale.mdc"]
         = some (.file (.rawData "stale"))
     | .error _ => False) :=
  C7_no_removal ["root"] fsW7 _ rfl _ _ ⟨["stale.mdc"], rfl⟩ rfl

/-! ## Resolution monotonicity and well-formedness preservation -/

namespace FS

theorem resolveN_mono_fuel {fs : FS} :
    ∀ {n m : Nat} {p : FPath} {e : FSEntry},
      fs.resolveN n p = some e → n ≤ m → fs.resolveN m p = some e := by
  intro n
  induction n with
  | zero => intro m p e h _; exact absurd h (by simp [resolveN])
  | succ n ih =>
    intro m p e h hnm
    obtain ⟨m', rfl⟩ : ∃ m', m = m' + 1 := ⟨m - 1, by omega⟩
    rw [resolveN] at h ⊢
    cases hentry : fs.entryAt p with
    | none => rw [hentry] at h; exact absurd h (by simp)
    | some e0 =>
      cases e0 with
      | symlink t => rw [hentry] at h; exact ih h (by omega)
      | file d => rw [hentry] at h; exact h
      | dir => rw [hentry] at h; exact h

theorem resolveN_mono_fs {fs s : FS} (hpres : PresExact fs s) :
    ∀ {n : Nat} {p : FPath} {e : FSEntry},
      fs.resolveN n p = some e → s.resolveN n p = some e := by
  intro n
  induction n with
  | zero => intro p e h; exact absurd h (by simp [resolveN])
  | succ n ih =>
    intro p e h
    rw [resolveN] at h ⊢
    cases hentry : fs.entryAt p with
    | none => rw [hentry] at h; exact absurd h (by simp)
    | some e0 =>
      rw [hentry] at h
      rw [hpres p e0 hentry]
      cases e0 with
      | symlink t => exact ih h
      | file d => exact h
      | dir => exact h

theorem statEntry_mono {fs s : FS} (hpres : PresExact fs s)
    (hlen : fs.entries.length ≤ s.entries.length) {p : FPath} {e : FSEntry}
    (h : fs.statEntry p = some e) : s.statEntry p = some e := by
  unfold statEntry at h ⊢
  exact resolveN_mono_fuel (resolveN_mono_fs hpres h) (by unfold resFuel; omega)

theorem existsSync_mono {fs s : FS} (hpres : PresExact fs s)
    (hlen : fs.entries.length ≤ s.entries.length) {p : FPath}
    (h : fs.existsSync p = true) : s.existsSync p = true := by
  unfold existsSync at h ⊢
  obtain ⟨e, he⟩ := Option.isSome_iff_exists.mp h
  rw [statEntry_mono hpres hlen he]
  rfl

theorem statIsDir_eq_statEntry {fs : FS} {p : FPath}
    (h : fs.statIsDir p = true) : fs.statEntry p = some .dir := by
  unfold statIsDir at h
  cases he : fs.statEntry p with
  | none => rw [he] at h; exact absurd h (by simp)
  | some e0 =>
    cases e0 with
    | dir => rfl
    | file d => rw [he] at h; exact absurd h (by simp)
    | symlink t => rw [he] at h; exact absurd h (by simp)

theorem statIsDir_of_statEntry {fs : FS} {p : FPath}
    (h : fs.statEntry p = some .dir) : fs.statIsDir p = true := by
  unfold statIsDir
  rw [h]

theorem statIsDir_mono {fs s : FS} (hpres : PresExact fs s)
    (hlen : fs.entries.length ≤ s.entries.length) {p : FPath}
    (h : fs.statIsDir p = true) : s.statIsDir p = true :=
  statIsDir_of_statEntry (statEntry_mono hpres hlen (statIsDir_eq_statEntry h))

/-! well-formedness preservation -/

theorem WF_insert (fs : FS) (p : FPath) (e : FSEntry) (h : fs.WF) :
    (fs.insert p e).WF := by
  unfold WF at h ⊢
  unfold insert
  simp only [List.map_cons]
  refine List.Nodup.cons ?_ ?_
  · intro hmem
    obtain ⟨pe, hpe_mem, hpe_eq⟩ := List.mem_map.mp hmem
    have := List.of_mem_filter hpe_mem
    rw [hpe_eq] at this
    simp at this
  · exact h.sublist ((List.filter_sublist _).map _)
    
theorem WF_remove (fs : FS) (p : FPath) (h : fs.WF) : (fs.remove p).WF :=
  h.sublist ((List.filter_sublist _).map _)

theorem WF_mkdirStep (s : FS) (q : FPath) (h : s.WF) : (mkdirStep s q).WF := by
  unfold mkdirStep
  split
  · exact h
  · exact WF_insert s q .dir h

theorem WF_foldl_mkdirStep (L : List FPath) :
    ∀ (s : FS), s.WF → (L.foldl mkdirStep s).WF := by
  induction L with
  | nil => intro s h; exact h
  | cons a t ih => intro s h; exact ih _ (WF_mkdirStep s a h)

theorem WF_mkdirRec (fs : FS) (p : FPath) (h : fs.WF) : (fs.mkdirRec p).WF :=
  WF_foldl_mkdirStep _ _ h

/-! length monotonicity for the creating operations -/

theorem length_le_insert (fs : FS) (p : FPath) (e : FSEntry)
    (hfresh : fs.entryAt p = none) :
    fs.entries.length ≤ (fs.insert p e).entries.length := by
  unfold insert
  simp only [List.length_cons]
  have : fs.entries.filter (fun pe => !(pe.1 == p)) = fs.entries := by
    apply List.filter_eq_self.mpr
    intro a ha
    have := List.find?_eq_none.mp (by
      unfold entryAt at hfresh
      exact Option.map_eq_none.mp hfresh) a ha
    simpa using this
  rw [this]
  omega

theorem length_le_mkdirStep (s : FS) (q : FPath) :
    s.entries.length ≤ (mkdirStep s q).entries.length := by
  unfold mkdirStep
  split
  · exact Nat.le_refl _
  · rename_i hq
    exact length_le_insert s q .dir (by
      cases hsq : s.entryAt q with
      | none => rfl
      | some e0 => rw [hsq] at hq; simp at hq)

theorem length_le_foldl_mkdirStep (L : List FPath) :
    ∀ (s : FS), s.entries.length ≤ (L.foldl mkdirStep s).entries.length := by
  induction L with
  | nil => intro s; exact Nat.le_refl _
  | cons a t ih =>
    intro s
    exact (length_le_mkdirStep s a).trans (ih _)

theorem length_le_mkdirRec (fs : FS) (p : FPath) :
    fs.entries.length ≤ (fs.mkdirRec p).entries.length :=
  length_le_foldl_mkdirStep _ _

theorem mkdirRec_presExact (fs : FS) (q : FPath) : PresExact fs (fs.mkdirRec q) :=
  fun _ _ h => mkdirRec_pres fs q h

end FS

/-! ## Claim C2 (amended): without enumeration errors the run never aborts -/

namespace FS

theorem unreadable_mkdirStep (s : FS) (q : FPath) :
    (mkdirStep s q).unreadable = s.unreadable := by
  unfold mkdirStep
  split
  · rfl
  · rfl

theorem unreadable_foldl_mkdirStep (L : List FPath) :
    ∀ (s : FS), (L.foldl mkdirStep s).unreadable = s.unreadable := by
  induction L with
  | nil => intro s; rfl
  | cons a t ih => intro s; rw [List.foldl_cons, ih, unreadable_mkdirStep]

theorem unreadable_mkdirRec (fs : FS) (p : FPath) :
    (fs.mkdirRec p).unreadable = fs.unreadable :=
  unreadable_foldl_mkdirStep _ _

theorem unlinkSync_ok_keeps {fs fs2 : FS} {p : FPath}
    (h : fs.unlinkSync p = .ok fs2) :
    fs2.unreadable = fs.unreadable ∧ (fs.WF → fs2.WF) := by
  unfold unlinkSync at h
  split at h
  · exact absurd h (by simp)
  · split at h
    · injection h with h2
      rw [← h2]
      exact ⟨rfl, WF_remove fs p⟩
    · exact absurd h (by simp)

theorem symlinkSync_ok_keeps {fs fs2 : FS} {src tgt : FPath}
    (h : fs.symlinkSync src tgt = .ok fs2) :
    fs2.unreadable = fs.unreadable ∧ (fs.WF → fs2.WF) := by
  unfold symlinkSync at h
  split at h
  · exact absurd h (by simp)
  · split at h
    · exact absurd h (by simp)
    · injection h with h2
      rw [← h2]
      exact ⟨rfl, WF_insert fs tgt _⟩

end FS

theorem attemptLink_keeps (fs : FS) (src tgt : FPath) :
    (attemptLink fs src tgt).1.unreadable = fs.unreadable ∧
    (fs.WF → (attemptLink fs src tgt).1.WF) := by
  unfold attemptLink
  split
  · cases hs : fs.symlinkSync src tgt with
    | ok fs2 => exact FS.symlinkSync_ok_keeps hs
    | error e => exact ⟨rfl, id⟩
  · exact ⟨rfl, id⟩

theorem processRuleFile_keeps (force : Bool) (rd tpd : FPath) (fs : FS) (f : FPath) :
    (processRuleFile force rd tpd fs f).1.unreadable = fs.unreadable ∧
    (fs.WF → (processRuleFile force rd tpd fs f).1.WF) := by
  simp only [processRuleFile]
  have hstep : ∀ g : FS, g.unreadable = fs.unreadable → (fs.WF → g.WF) →
      ((if force && g.existsSync (tpd ++ f.drop rd.length) then
          match g.unlinkSync (tpd ++ f.drop rd.length) with
          | .error _ => (g, Outcome.failed)
          | .ok fs2 => attemptLink fs2 f (tpd ++ f.drop rd.length)
        else attemptLink g f (tpd ++ f.drop rd.length)).1.unreadable = fs.unreadable ∧
       (fs.WF →
        (if force && g.existsSync (tpd ++ f.drop rd.length) then
          match g.unlinkSync (tpd ++ f.drop rd.length) with
          | .error _ => (g, Outcome.failed)
          | .ok fs2 => attemptLink fs2 f (tpd ++ f.drop rd.length)
        else attemptLink g f (tpd ++ f.drop rd.length)).1.WF)) := by
    intro g hur hwf
    split
    · cases hu : g.unlinkSync (tpd ++ f.drop rd.length) with
      | error e => exact ⟨hur, hwf⟩
      | ok fs2 =>
        obtain ⟨h1, h2⟩ := FS.unlinkSync_ok_keeps hu
        obtain ⟨h3, h4⟩ := attemptLink_keeps fs2 f (tpd ++ f.drop rd.length)
        exact ⟨h3.trans (h1.trans hur), fun hw => h4 (h2 (hwf hw))⟩
    · obtain ⟨h3, h4⟩ := attemptLink_keeps g f (tpd ++ f.drop rd.length)
      exact ⟨h3.trans hur, fun hw => h4 (hwf hw)⟩
  split
  · exact hstep fs rfl id
  · exact hstep _ (FS.unreadable_mkdirRec fs _) (FS.WF_mkdirRec fs _)

theorem processRuleFiles_keeps (force : Bool) (rd tpd : FPath) (files : List FPath) :
    ∀ (fs : FS) (st : Stats),
      (processRuleFiles force rd tpd files fs st).1.unreadable = fs.unreadable ∧
      (fs.WF → (processRuleFiles force rd tpd files fs st).1.WF) := by
  induction files with
  | nil => intro fs st; exact ⟨rfl, id⟩
  | cons f rest ih =>
    intro fs st
    obtain ⟨h1, h2⟩ := processRuleFile_keeps force rd tpd fs f
    obtain ⟨h3, h4⟩ := ih (processRuleFile force rd tpd fs f).1 (countOutcome st (processRuleFile force rd tpd fs f).2)
    exact ⟨h3.trans h1, fun hw => h4 (h2 hw)⟩

theorem find?_key_of_mem_nodup :
    ∀ {l : List (FPath × FSEntry)}, (l.map Prod.fst).Nodup →
      ∀ {p : FPath} {e : FSEntry}, (p, e) ∈ l →
        (l.find? (fun pe => pe.1 == p)).map (·.2) = some e := by
  intro l
  induction l with
  | nil => intro _ p e h; exact absurd h (List.not_mem_nil _)
  | cons a t ih =>
    intro hwf p e h
    rw [List.map_cons] at hwf
    rcases List.mem_cons.mp h with rfl | ht
    · rw [List.find?_cons_of_pos _ (by simp)]
      rfl
    · have hne : a.1 ≠ p := by
        intro heq
        have hmem : p ∈ t.map Prod.fst := List.mem_map.mpr ⟨(p, e), ht, rfl⟩
        rw [← heq] at hmem
        exact (List.nodup_cons.mp hwf).1 hmem
      rw [List.find?_cons_of_neg _ (by simp [hne])]
      exact ih (List.nodup_cons.mp hwf).2 ht

theorem entryAt_of_mem_wf {fs : FS} (hwf : fs.WF) {p : FPath} {e : FSEntry}
    (h : (p, e) ∈ fs.entries) : fs.entryAt p = some e :=
  find?_key_of_mem_nodup hwf h

theorem traverseList_ok (recurse : FPath → Option (Except Unit (List FPath)))
    (d : FPath) (es : List (String × FSEntry))
    (h : ∀ name ety, (name, ety) ∈ es → ety = .dir →
           ∃ l, recurse (d ++ [name]) = some (.ok l)) :
    ∃ l, traverseList recurse d es = some (.ok l) := by
  induction es with
  | nil => exact ⟨[], rfl⟩
  | cons a rest ih =>
    obtain ⟨name, ety⟩ := a
    obtain ⟨lrest, hrest⟩ : ∃ l, traverseList recurse d rest = some (.ok l) := by
      apply ih
      intro n e hm hd
      exact h n e (List.mem_cons_of_mem _ hm) hd
    cases ety with
    | dir =>
      obtain ⟨lsub, hsub⟩ := h name .dir (List.mem_cons_self _ _) rfl
      exact ⟨lsub ++ lrest, by simp [traverseList, hsub, hrest]⟩
    | file data => exact ⟨(d ++ [name]) :: lrest, by simp [traverseList, hrest]⟩
    | symlink t => exact ⟨(d ++ [name]) :: lrest, by simp [traverseList, hrest]⟩

theorem traverseFuel_ok (fs : FS) (hwf : fs.WF) (hur : fs.unreadable = []) :
    ∀ (n : Nat) (d : FPath), fs.maxLen + 1 ≤ n + d.length → 1 ≤ n →
      fs.statIsDir d = true → ∃ l, fs.traverseFuel n d = some (.ok l) := by
  intro n
  induction n with
  | zero => intro d _ h1; exact absurd h1 (by omega)
  | succ n ih =>
    intro d hb _ hdir
    rw [FS.traverseFuel]
    have hrd : fs.readdirSync d = .ok (fs.childrenOf d) := by
      unfold FS.readdirSync
      rw [if_neg (by simp [hur]), if_pos hdir]
    rw [hrd]
    apply traverseList_ok
    intro name ety hmem hety
    subst hety
    have hch : (d ++ [name], FSEntry.dir) ∈ fs.entries := childrenOf_mem hmem
    have hlen : d.length + 1 ≤ fs.maxLen := by
      have := entry_length_le_maxLen hch
      simpa using this
    apply ih
    · rw [List.length_append, List.length_cons, List.length_nil]
      omega
    · omega
    · exact FS.statIsDir_of_dir fs (entryAt_of_mem_wf hwf hch)

theorem getAllFiles_ok (fs : FS) (d : FPath) (hwf : fs.WF)
    (hur : fs.unreadable = []) (hdir : fs.statIsDir d = true) :
    ∃ l, fs.getAllFiles d = .ok l := by
  obtain ⟨l, hl⟩ := traverseFuel_ok fs hwf hur fs.depthFuel d
    (by unfold FS.depthFuel; omega) (by unfold FS.depthFuel; omega) hdir
  exact ⟨l, by unfold FS.getAllFiles; rw [hl]; rfl⟩

theorem processProject_ok (force : Bool) (rootDir : FPath) (fs : FS) (st : Stats)
    (proj : String) (hwf : fs.WF) (hur : fs.unreadable = []) :
    ∃ r, processProject force rootDir fs st proj = .ok r ∧
      r.1.unreadable = [] ∧ r.1.WF := by
  simp only [processProject]
  split
  · split
    · rename_i hcur hrules
      have hdir : fs.statIsDir (rootDir ++ [proj, ".cursor"] ++ ["rules"]) = true :=
        (Bool.and_eq_true _ _).mp hrules |>.2
      set fs1 := if fs.existsSync (rootDir ++ [".cursor", "rules", proj]) then fs
                 else fs.mkdirRec (rootDir ++ [".cursor", "rules", proj]) with hfs1
      have hkeep1 : fs1.unreadable = [] ∧ fs1.WF ∧
          fs.entries.length ≤ fs1.entries.length ∧ FS.PresExact fs fs1 := by
        rw [hfs1]
        split
        · exact ⟨hur, hwf, Nat.le_refl _, fun _ _ h => h⟩
        · exact ⟨(FS.unreadable_mkdirRec fs _).trans hur, FS.WF_mkdirRec fs _ hwf,
            FS.length_le_mkdirRec fs _, FS.mkdirRec_presExact fs _⟩
      have hdir1 : fs1.statIsDir (rootDir ++ [proj, ".cursor"] ++ ["rules"]) = true :=
        FS.statIsDir_mono hkeep1.2.2.2 hkeep1.2.2.1 hdir
      obtain ⟨files, hfiles⟩ := getAllFiles_ok fs1 _ hkeep1.2.1 hkeep1.1 hdir1
      rw [hfiles]
      refine ⟨_, rfl, ?_, ?_⟩
      · exact (processRuleFiles_keeps force _ _ files fs1 _).1.trans hkeep1.1
      · exact (processRuleFiles_keeps force _ _ files fs1 _).2 hkeep1.2.1
    · exact ⟨(fs, st), rfl, hur, hwf⟩
  · exact ⟨(fs, st), rfl, hur, hwf⟩

theorem processProjects_ok (force : Bool) (rootDir : FPath) (projs : List String) :
    ∀ (fs : FS) (st : Stats), fs.WF → fs.unreadable = [] →
      ∃ r, processProjects force rootDir projs fs st = .ok r ∧
        r.1.unreadable = [] ∧ r.1.WF := by
  induction projs with
  | nil => intro fs st hwf hur; exact ⟨(fs, st), rfl, hur, hwf⟩
  | cons proj rest ih =>
    intro fs st hwf hur
    obtain ⟨r1, hr1, hur1, hwf1⟩ := processProject_ok force rootDir fs st proj hwf hur
    obtain ⟨r2, hr2, hur2, hwf2⟩ := ih r1.1 r1.2 hwf1 hur1
    refine ⟨r2, ?_, hur2, hwf2⟩
    unfold processProjects
    rw [hr1]
    exact hr2

/-- C2 (amended): if no directory is unreadable (so rule-file enumeration
cannot throw) the run never aborts, whatever unlink or symlink failures
occur: those are caught per file, counted, and the run completes with a
result.  (The unamended claim fails: an enumeration error aborts the
whole run — see `C2_cex`.) -/
theorem C2_no_abort_without_enum_errors (force : Bool) (rootDir : FPath) (fs : FS)
    (hwf : fs.WF) (hur : fs.unreadable = [])
    (hroot : fs.entryAt rootDir = some .dir) :
    ∃ res, run force rootDir fs = .ok res := by
  simp only [run]
  set fs1 := if fs.existsSync (rootCursorRulesDir rootDir) then fs
             else fs.mkdirRec (rootCursorRulesDir rootDir) with hfs1
  have hkeep1 : fs1.unreadable = [] ∧ fs1.WF ∧
      fs1.entryAt rootDir = some .dir := by
    rw [hfs1]
    split
    · exact ⟨hur, hwf, hroot⟩
    · exact ⟨(FS.unreadable_mkdirRec fs _).trans hur, FS.WF_mkdirRec fs _ hwf,
        FS.mkdirRec_pres fs _ hroot⟩
  have hrd : fs1.readdirSync rootDir = .ok (fs1.childrenOf rootDir) := by
    unfold FS.readdirSync
    rw [if_neg (by simp [hkeep1.1]), if_pos (FS.statIsDir_of_dir fs1 hkeep1.2.2)]
  simp only [hrd]
  obtain ⟨r, hr, _, _⟩ := processProjects_ok force rootDir
    (projectsFrom (fs1.childrenOf rootDir)) fs1
    ⟨(projectsFrom (fs1.childrenOf rootDir)).length, 0, 0, 0, 0⟩ hkeep1.2.1 hkeep1.1
  simp only [hr]
  exact ⟨_, rfl⟩

theorem C2_no_abort_without_enum_errors_witness :
    run true ["root"] fsW4d ≠ Except.error () := by
  obtain ⟨res, hres⟩ :=
    C2_no_abort_without_enum_errors true ["root"] fsW4d (by unfold FS.WF; decide) rfl rfl
  rw [hres]
  simp

/-! ## Region lemmas -/

theorem regionCV_of_prefix {rootDir q t : FPath} (hq : q <+: t)
    (ht : RegionCV rootDir t) : RegionCV rootDir q := by
  rcases ht with h | h | h
  · exact Or.inl (hq.trans h)
  · rcases List.prefix_or_prefix_of_prefix hq h with h2 | h2
    · by_cases hl : q.length ≤ rootDir.length
      · exact Or.inl (List.prefix_of_prefix_length_le h2 (List.prefix_append rootDir [".cursor"]) (by simpa using hl))
      · have : (rootDir ++ [".cursor"]).length ≤ q.length := by
          simp only [List.length_append, List.length_cons, List.length_nil]
          omega
        exact Or.inr (Or.inl (List.prefix_of_prefix_length_le (List.prefix_refl _) h2 this))
    · exact Or.inr (Or.inl h2)
  · rcases List.prefix_or_prefix_of_prefix hq h with h2 | h2
    · by_cases hl : q.length ≤ rootDir.length
      · exact Or.inl (List.prefix_of_prefix_length_le h2 (List.prefix_append rootDir [".vscode"]) (by simpa using hl))
      · have : (rootDir ++ [".vscode"]).length ≤ q.length := by
          simp only [List.length_append, List.length_cons, List.length_nil]
          omega
        exact Or.inr (Or.inr (List.prefix_of_prefix_length_le (List.prefix_refl _) h2 this))
    · exact Or.inr (Or.inr h2)

theorem cancel_prefix_component {rootDir : FPath} {b P : String} {suffix : List String}
    (h : (rootDir ++ [b]) <+: (rootDir ++ P :: suffix)) : b = P := by
  obtain ⟨t, ht⟩ := h
  rw [List.append_assoc] at ht
  have h2 := List.append_cancel_left ht
  exact (List.cons_eq_cons.mp h2).1

theorem not_regionCV_project {rootDir : FPath} {P : String}
    (hP : startsWithDot P = false) (suffix : List String) :
    ¬ RegionCV rootDir (rootDir ++ P :: suffix) := by
  intro h
  rcases h with h | h | h
  · have := h.length_le
    simp only [List.length_append, List.length_cons] at this
    omega
  · have := cancel_prefix_component h
    rw [← this] at hP
    exact absurd hP (by decide)
  · have := cancel_prefix_component h
    rw [← this] at hP
    exact absurd hP (by decide)

/-- a child of the root that the run may touch is dot-named -/
theorem region_child_dot {rootDir : FPath} {n : String}
    (h : RegionCV rootDir (rootDir ++ [n])) : startsWithDot n = true := by
  rcases h with h | h | h
  · have := h.length_le
    simp only [List.length_append, List.length_cons, List.length_nil] at this
    omega
  · obtain ⟨t, ht⟩ := h
    rw [List.append_assoc] at ht
    have h2 := List.append_cancel_left ht
    rw [← (List.cons_eq_cons.mp h2).1]
    decide
  · obtain ⟨t, ht⟩ := h
    rw [List.append_assoc] at ht
    have h2 := List.append_cancel_left ht
    rw [← (List.cons_eq_cons.mp h2).1]
    decide

/-! ## insert/children interaction -/

namespace FS

theorem insert_fresh_entries (fs : FS) {q : FPath} (e : FSEntry)
    (hq : fs.entryAt q = none) :
    (fs.insert q e).entries = (q, e) :: fs.entries := by
  have hfil : fs.entries.filter (fun pe => !(pe.1 == q)) = fs.entries := by
    apply List.filter_eq_self.mpr
    intro a ha
    have := List.find?_eq_none.mp (by
      unfold entryAt at hq
      exact Option.map_eq_none.mp hq) a ha
    simpa using this
  unfold insert
  rw [hfil]

theorem childrenOf_filter_ne (entries : List (FPath × FSEntry)) (q d : FPath)
    (hqd : q.dropLast ≠ d) :
    (entries.filter (fun pe => !(pe.1 == q))).filterMap (fun pe =>
      if !pe.1.isEmpty && (pe.1.dropLast == d) then some (pe.1.getLastD "", pe.2)
      else none) =
    entries.filterMap (fun pe =>
      if !pe.1.isEmpty && (pe.1.dropLast == d) then some (pe.1.getLastD "", pe.2)
      else none) := by
  induction entries with
  | nil => rfl
  | cons a t ih =>
    by_cases haq : a.1 = q
    · rw [List.filter_cons_of_neg (by simp [haq]), List.filterMap_cons_none, ih]
      rw [if_neg]
      intro hc
      have := ((Bool.and_eq_true _ _).mp hc).2
      exact hqd (by rw [← haq]; exact beq_iff_eq.mp this)
    · rw [List.filter_cons_of_pos (by simp [haq]), List.filterMap_cons, List.filterMap_cons]
      split
      · rw [ih]
      · rw [ih]

/-- inserting at a path that is not a child of `d` leaves `d`'s child
list unchanged (even when the insert overwrites) -/
theorem childrenOf_insert_not_child (fs : FS) {q : FPath} (e : FSEntry) (d : FPath)
    (hqd : q.dropLast ≠ d) :
    (fs.insert q e).childrenOf d = fs.childrenOf d := by
  unfold childrenOf insert
  simp only [List.filterMap_cons]
  rw [if_neg (by
    intro hc
    have := ((Bool.and_eq_true _ _).mp hc).2
    exact hqd (beq_iff_eq.mp this))]
  exact childrenOf_filter_ne fs.entries q d hqd

/-- inserting a fresh entry prepends it to the child list of its parent
and leaves all other child lists unchanged -/
theorem childrenOf_insert_fresh (fs : FS) {q : FPath} (e : FSEntry)
    (hq : fs.entryAt q = none) (d : FPath) :
    (fs.insert q e).childrenOf d =
      (if !q.isEmpty && (q.dropLast == d) then [(q.getLastD "", e)] else [])
        ++ fs.childrenOf d := by
  unfold childrenOf
  rw [insert_fresh_entries fs e hq]
  by_cases hc : (!q.isEmpty && (q.dropLast == d)) = true
  · obtain ⟨h1, h2⟩ : ¬q = [] ∧ q.dropLast = d := by
      have h3 := (Bool.and_eq_true _ _).mp hc
      exact ⟨by simpa using h3.1, beq_iff_eq.mp h3.2⟩
    simp [List.filterMap_cons, h1, h2]
  · have h3 : ¬(¬q = [] ∧ q.dropLast = d) := by
      intro hx
      exact hc (by simp [hx.1, hx.2])
    simp [List.filterMap_cons, h3, hc]

theorem filter_ne_length_of_mem_nodup :
    ∀ {l : List (FPath × FSEntry)}, (l.map Prod.fst).Nodup →
      ∀ {q : FPath}, q ∈ l.map Prod.fst →
        (l.filter (fun pe => !(pe.1 == q))).length + 1 = l.length := by
  intro l
  induction l with
  | nil => intro _ q h; exact absurd h (List.not_mem_nil q)
  | cons a t ih =>
    intro hnd q hq
    rw [List.map_cons] at hnd hq
    by_cases haq : a.1 = q
    · rw [List.filter_cons_of_neg (by simp [haq])]
      have hnot : q ∉ t.map Prod.fst := by rw [← haq]; exact (List.nodup_cons.mp hnd).1
      have : t.filter (fun pe => !(pe.1 == q)) = t := by
        apply List.filter_eq_self.mpr
        intro b hb
        simp only [Bool.not_eq_eq_eq_not, Bool.not_true, beq_eq_false_iff_ne]
        intro hbq
        exact hnot (List.mem_map.mpr ⟨b, hb, hbq⟩)
      rw [this, List.length_cons]
    · rcases List.mem_cons.mp hq with h1 | h1
      · exact absurd h1.symm haq
      · rw [List.filter_cons_of_pos (by simp [haq]), List.length_cons, List.length_cons,
          ih (List.nodup_cons.mp hnd).2 h1]

theorem length_insert_occupied (fs : FS) {q : FPath} (e : FSEntry)
    (hwf : fs.WF) {e0 : FSEntry} (hq : fs.entryAt q = some e0) :
    (fs.insert q e).entries.length = fs.entries.length := by
  unfold insert
  simp only [List.length_cons]
  apply filter_ne_length_of_mem_nodup hwf
  unfold entryAt at hq
  obtain ⟨pe, hpe, hpeq⟩ := Option.map_eq_some'.mp hq
  have := List.find?_some hpe
  have hmem := List.mem_of_find?_eq_some hpe
  exact List.mem_map.mpr ⟨pe, hmem, beq_iff_eq.mp this⟩

end FS

/-! ## StepOK: reflexivity, transitivity -/

theorem stepOK_refl (rootDir : FPath) (fs : FS) : StepOK rootDir fs fs :=
  ⟨rfl, rfl, rfl, Nat.le_refl _, fun _ _ h => Or.inl h, fun _ _ => rfl,
   fun d _ => ⟨[], rfl, by simp⟩⟩

theorem presWeak_trans {a b c : FS} (h1 : FS.PresWeak a b) (h2 : FS.PresWeak b c) :
    FS.PresWeak a c := by
  intro p e he
  rcases h1 p e he with hb | ⟨d1, d2, rfl, hb⟩
  · rcases h2 p e hb with hc | ⟨d1, d2, rfl, hc⟩
    · exact Or.inl hc
    · exact Or.inr ⟨d1, d2, rfl, hc⟩
  · rcases h2 p _ hb with hc | ⟨d2', d3, hdd, hc⟩
    · exact Or.inr ⟨d1, d2, rfl, hc⟩
    · injection hdd with hdd2
      exact Or.inr ⟨d1, d3, rfl, hc⟩

theorem stepOK_trans {rootDir : FPath} {a b c : FS}
    (h1 : StepOK rootDir a b) (h2 : StepOK rootDir b c) : StepOK rootDir a c := by
  obtain ⟨u1, l1, s1, n1, w1, f1, c1⟩ := h1
  obtain ⟨u2, l2, s2, n2, w2, f2, c2⟩ := h2
  refine ⟨u2.trans u1, l2.trans l1, s2.trans s1, n1.trans n2,
    presWeak_trans w1 w2, ?_, ?_⟩
  · intro p hp
    rw [f2 p hp, f1 p hp]
  · intro d hd
    obtain ⟨x1, hx1, hr1⟩ := c1 d hd
    obtain ⟨x2, hx2, hr2⟩ := c2 d hd
    refine ⟨x2 ++ x1, ?_, ?_⟩
    · rw [hx2, hx1, List.append_assoc]
    · intro x hx
      rcases List.mem_append.mp hx with h | h
      · exact hr2 x h
      · exact hr1 x h

/-! ## weak monotonicity and stability of existence checks -/

namespace FS

theorem resolveN_kind_mono {fs s : FS} (hweak : PresWeak fs s) :
    ∀ {n : Nat} {p : FPath} {e : FSEntry}, fs.resolveN n p = some e →
      ∃ e2, s.resolveN n p = some e2 ∧
        ((e = .dir ∧ e2 = .dir) ∨ ∃ d1 d2, e = .file d1 ∧ e2 = .file d2) := by
  intro n
  induction n with
  | zero => intro p e h; exact absurd h (by simp [resolveN])
  | succ n ih =>
    intro p e h
    rw [resolveN] at h ⊢
    cases hentry : fs.entryAt p with
    | none => rw [hentry] at h; exact absurd h (by simp)
    | some e0 =>
      rw [hentry] at h
      cases e0 with
      | symlink t =>
        rcases hweak p _ hentry with hs | ⟨d1, d2, hdd, hs⟩
        · rw [hs]
          exact ih h
        · exact absurd hdd (by simp)
      | file d =>
        rcases hweak p _ hentry with hs | ⟨d1, d2, hdd, hs⟩
        · rw [hs]
          injection h with h2
          exact ⟨.file d, rfl, Or.inr ⟨d, d, h2.symm ▸ rfl, rfl⟩⟩
        · rw [hs]
          injection h with h2
          injection hdd with hdd2
          exact ⟨.file d2, rfl, Or.inr ⟨d, d2, h2.symm ▸ rfl, rfl⟩⟩
      | dir =>
        rcases hweak p _ hentry with hs | ⟨d1, d2, hdd, hs⟩
        · rw [hs]
          injection h with h2
          exact ⟨.dir, rfl, Or.inl ⟨h2.symm, rfl⟩⟩
        · exact absurd hdd (by simp)

theorem statEntry_kind_mono {fs s : FS} (hweak : PresWeak fs s)
    (hlen : fs.entries.length ≤ s.entries.length) {p : FPath} {e : FSEntry}
    (h : fs.statEntry p = some e) :
    ∃ e2, s.statEntry p = some e2 ∧
      ((e = .dir ∧ e2 = .dir) ∨ ∃ d1 d2, e = .file d1 ∧ e2 = .file d2) := by
  obtain ⟨e2, he2, hk⟩ := resolveN_kind_mono hweak h
  exact ⟨e2, resolveN_mono_fuel he2 (by unfold resFuel; omega), hk⟩

theorem existsSync_mono_weak {fs s : FS} (hweak : PresWeak fs s)
    (hlen : fs.entries.length ≤ s.entries.length) {p : FPath}
    (h : fs.existsSync p = true) : s.existsSync p = true := by
  unfold existsSync at h ⊢
  obtain ⟨e, he⟩ := Option.isSome_iff_exists.mp h
  obtain ⟨e2, he2, _⟩ := statEntry_kind_mono hweak hlen he
  rw [he2]
  rfl

theorem statIsDir_mono_weak {fs s : FS} (hweak : PresWeak fs s)
    (hlen : fs.entries.length ≤ s.entries.length) {p : FPath}
    (h : fs.statIsDir p = true) : s.statIsDir p = true := by
  obtain ⟨e2, he2, hk⟩ := statEntry_kind_mono hweak hlen (statIsDir_eq_statEntry h)
  rcases hk with ⟨_, rfl⟩ | ⟨d1, d2, hdd, _⟩
  · exact statIsDir_of_statEntry he2
  · exact absurd hdd (by simp)

/-- with no dangling links in `fs`, the existence check at a path whose
own entry is unchanged gives the same answer in any weakly-extended
state -/
theorem existsSync_stable {fs s : FS} (hweak : PresWeak fs s)
    (hlen : fs.entries.length ≤ s.entries.length) (hnd : fs.NoD) {q : FPath}
    (heq : s.entryAt q = fs.entryAt q) : s.existsSync q = fs.existsSync q := by
  cases hentry : fs.entryAt q with
  | none =>
    rw [existsSync_of_none fs hentry, existsSync_of_none s (heq.trans hentry)]
  | some e0 =>
    cases e0 with
    | file d =>
      rw [existsSync_of_file fs hentry, existsSync_of_file s (heq.trans hentry)]
    | dir =>
      rw [existsSync_of_dir fs hentry, existsSync_of_dir s (heq.trans hentry)]
    | symlink t =>
      have h1 : fs.existsSync q = true := hnd q t hentry
      rw [h1]
      exact existsSync_mono_weak hweak hlen h1

theorem statIsDir_stable {fs s : FS} (hweak : PresWeak fs s)
    (hlen : fs.entries.length ≤ s.entries.length) (hnd : fs.NoD) {q : FPath}
    (heq : s.entryAt q = fs.entryAt q) : s.statIsDir q = fs.statIsDir q := by
  cases hentry : fs.entryAt q with
  | none =>
    unfold statIsDir
    rw [statEntry_of_none fs hentry, statEntry_of_none s (heq.trans hentry)]
  | some e0 =>
    cases e0 with
    | file d =>
      unfold statIsDir
      rw [statEntry_of_file fs hentry, statEntry_of_file s (heq.trans hentry)]
    | dir =>
      unfold statIsDir
      rw [statEntry_of_dir fs hentry, statEntry_of_dir s (heq.trans hentry)]
    | symlink t =>
      have h1 : fs.existsSync q = true := hnd q t hentry
      obtain ⟨e, he⟩ := Option.isSome_iff_exists.mp h1
      obtain ⟨e2, he2, hk⟩ := statEntry_kind_mono hweak hlen he
      unfold statIsDir
      rw [he, he2]
      rcases hk with ⟨rfl, rfl⟩ | ⟨d1, d2, rfl, rfl⟩
      · rfl
      · rfl

end FS

/-! ## NoD (no dangling symlink) maintenance -/

namespace FS

theorem presExact_insert_fresh (fs : FS) {q : FPath} (e : FSEntry)
    (hq : fs.entryAt q = none) : PresExact fs (fs.insert q e) :=
  fun _ _ h => insert_fresh_pres e hq h

theorem noD_insert_fresh_nonlink {fs : FS} {q : FPath} {e : FSEntry}
    (hq : fs.entryAt q = none) (he : ∀ t, e ≠ .symlink t) (hnd : fs.NoD) :
    (fs.insert q e).NoD := by
  intro p t hp
  by_cases hpq : p = q
  · subst hpq
    rw [entryAt_insert_self] at hp
    injection hp with hp2
    exact absurd hp2 (he t)
  · rw [entryAt_insert_ne _ _ hpq] at hp
    exact existsSync_mono (presExact_insert_fresh fs e hq) (length_le_insert fs q e hq)
      (hnd p t hp)

theorem noD_insert_fresh_symlink {fs : FS} {q src : FPath}
    (hq : fs.entryAt q = none) (hsrc : fs.existsSync src = true) (hnd : fs.NoD) :
    (fs.insert q (.symlink src)).NoD := by
  intro p t hp
  by_cases hpq : p = q
  · subst hpq
    obtain ⟨e, he⟩ := Option.isSome_iff_exists.mp hsrc
    have hsrc2 : (fs.insert p (.symlink src)).resolveN (fs.resFuel) src = some e :=
      resolveN_mono_fs (presExact_insert_fresh fs _ hq) he
    have hlen : (fs.insert p (.symlink src)).entries.length = fs.entries.length + 1 := by
      rw [insert_fresh_entries fs _ hq]
      rfl
    unfold existsSync statEntry
    rw [resFuel, hlen]
    rw [resolveN, entryAt_insert_self]
    rw [Option.isSome_iff_exists]
    exact ⟨e, resolveN_mono_fuel hsrc2 (by unfold resFuel; omega)⟩
  · rw [entryAt_insert_ne _ _ hpq] at hp
    exact existsSync_mono (presExact_insert_fresh fs _ hq) (length_le_insert fs q _ hq)
      (hnd p t hp)

theorem presWeak_insert_file_over {fs : FS} {q : FPath} {d0 dn : FileData}
    (hq : fs.entryAt q = some (.file d0)) :
    PresWeak fs (fs.insert q (.file dn)) := by
  intro p e hp
  by_cases hpq : p = q
  · subst hpq
    rw [hq] at hp
    injection hp with hp2
    exact Or.inr ⟨d0, dn, hp2.symm ▸ rfl, entryAt_insert_self fs p (.file dn)⟩
  · exact Or.inl (by rw [entryAt_insert_ne _ _ hpq]; exact hp)

theorem noD_insert_file_over {fs : FS} {q : FPath} {d0 dn : FileData}
    (hwf : fs.WF) (hq : fs.entryAt q = some (.file d0)) (hnd : fs.NoD) :
    (fs.insert q (.file dn)).NoD := by
  intro p t hp
  by_cases hpq : p = q
  · subst hpq
    rw [entryAt_insert_self] at hp
    exact absurd hp (by simp)
  · rw [entryAt_insert_ne _ _ hpq] at hp
    exact existsSync_mono_weak (presWeak_insert_file_over hq)
      (by rw [length_insert_occupied fs _ hwf hq]) (hnd p t hp)

theorem noD_mkdirStep {s : FS} (q : FPath) (hnd : s.NoD) : (mkdirStep s q).NoD := by
  unfold mkdirStep
  split
  · exact hnd
  · rename_i hq
    exact noD_insert_fresh_nonlink
      (Option.not_isSome_iff_eq_none.mp (by simpa using hq)) (by simp) hnd

theorem noD_foldl_mkdirStep (L : List FPath) :
    ∀ (s : FS), s.NoD → (L.foldl mkdirStep s).NoD := by
  induction L with
  | nil => intro s h; exact h
  | cons a t ih => intro s h; exact ih _ (noD_mkdirStep a h)

theorem noD_mkdirRec (fs : FS) (p : FPath) (hnd : fs.NoD) : (fs.mkdirRec p).NoD :=
  noD_foldl_mkdirStep _ _ hnd

end FS

/-! ## per-operation StepOK lemmas -/

theorem stepOK_insert_fresh {rootDir : FPath} {fs : FS} {q : FPath} (e : FSEntry)
    (hq : fs.entryAt q = none) (hreg : RegionCV rootDir q) :
    StepOK rootDir fs (fs.insert q e) := by
  refine ⟨rfl, rfl, rfl, FS.length_le_insert fs q e hq,
    fun p e0 h => Or.inl (FS.insert_fresh_pres e hq h), ?_, ?_⟩
  · intro p hp
    have hpq : p ≠ q := fun h => hp (h ▸ hreg)
    exact FS.entryAt_insert_ne fs e hpq
  · intro d _
    rw [FS.childrenOf_insert_fresh fs e hq d]
    by_cases hc : (!q.isEmpty && (q.dropLast == d)) = true
    · rw [if_pos hc]
      refine ⟨[(q.getLastD "", e)], rfl, ?_⟩
      intro x hx
      rcases List.mem_singleton.mp hx with rfl
      have h3 := (Bool.and_eq_true _ _).mp hc
      have hne : q ≠ [] := by simpa using h3.1
      have hdl : q.dropLast = d := beq_iff_eq.mp h3.2
      have : d ++ [q.getLastD ""] = q := by
        rw [← hdl]
        exact dropLast_concat_getLastD hne
      rw [this]
      exact hreg
    · rw [if_neg hc]
      exact ⟨[], rfl, by simp⟩

theorem stepOK_mkdirStep {rootDir : FPath} (s : FS) (q : FPath)
    (hreg : RegionCV rootDir q) : StepOK rootDir s (FS.mkdirStep s q) := by
  unfold FS.mkdirStep
  split
  · exact stepOK_refl rootDir s
  · rename_i hq
    exact stepOK_insert_fresh _
      (Option.not_isSome_iff_eq_none.mp (by simpa using hq)) hreg

theorem stepOK_foldl_mkdirStep {rootDir : FPath} (L : List FPath)
    (hL : ∀ q ∈ L, RegionCV rootDir q) :
    ∀ (s : FS), StepOK rootDir s (L.foldl FS.mkdirStep s) := by
  induction L with
  | nil => intro s; exact stepOK_refl rootDir s
  | cons a t ih =>
    intro s
    exact stepOK_trans (stepOK_mkdirStep s a (hL a (List.mem_cons_self _ _)))
      (ih (fun q hq => hL q (List.mem_cons_of_mem _ hq)) _)

theorem stepOK_mkdirRec {rootDir : FPath} (s : FS) {p : FPath}
    (hreg : RegionCV rootDir p) : StepOK rootDir s (s.mkdirRec p) := by
  apply stepOK_foldl_mkdirStep
  intro q hq
  obtain ⟨n, _, rfl⟩ := List.mem_map.mp hq
  exact regionCV_of_prefix (List.take_prefix n p) hreg

theorem stepOK_symlinkSync_ok {rootDir : FPath} {fs fs2 : FS} {src tgt : FPath}
    (h : fs.symlinkSync src tgt = .ok fs2) (hreg : RegionCV rootDir tgt) :
    StepOK rootDir fs fs2 := by
  unfold FS.symlinkSync at h
  split at h
  · exact absurd h (by simp)
  · split at h
    · exact absurd h (by simp)
    · injection h with h2
      rw [← h2]
      rename_i hns _
      exact stepOK_insert_fresh _
        (Option.not_isSome_iff_eq_none.mp (by simpa using hns)) hreg

theorem stepOK_attemptLink {rootDir : FPath} (fs : FS) (src tgt : FPath)
    (hreg : RegionCV rootDir tgt) :
    StepOK rootDir fs (attemptLink fs src tgt).1 := by
  unfold attemptLink
  split
  · cases hs : fs.symlinkSync src tgt with
    | ok fs2 => exact stepOK_symlinkSync_ok hs hreg
    | error e => exact stepOK_refl rootDir fs
  · exact stepOK_refl rootDir fs

/-! ## per-file analysis of the no-force reconciler -/

namespace FS

theorem noD_symlinkSync_ok {fs fs2 : FS} {src tgt : FPath}
    (h : fs.symlinkSync src tgt = .ok fs2) (hsrc : fs.existsSync src = true)
    (hnd : fs.NoD) : fs2.NoD := by
  unfold symlinkSync at h
  split at h
  · exact absurd h (by simp)
  · split at h
    · exact absurd h (by simp)
    · injection h with h2
      rw [← h2]
      rename_i hns _
      exact noD_insert_fresh_symlink
        (Option.not_isSome_iff_eq_none.mp (by simpa using hns)) hsrc hnd

theorem symlinkSync_ok_entry {fs fs2 : FS} {src tgt : FPath}
    (h : fs.symlinkSync src tgt = .ok fs2) :
    fs2.entryAt tgt = some (.symlink src) := by
  unfold symlinkSync at h
  split at h
  · exact absurd h (by simp)
  · split at h
    · exact absurd h (by simp)
    · injection h with h2
      rw [← h2]
      exact entryAt_insert_self fs tgt (.symlink src)

end FS

theorem perFile_false (rootDir rd tpd : FPath) (s : FS) (f : FPath)
    (hgs : FS.GoodState s)
    (htpd : (rootDir ++ [".cursor"]) <+: tpd)
    (hsrc : s.existsSync f = true) :
    ∀ {g1 : FS} {o : Outcome}, processRuleFile false rd tpd s f = (g1, o) →
      StepOK rootDir s g1 ∧ FS.GoodState g1 ∧
      g1.existsSync ((tpd ++ f.drop rd.length).dropLast) = true ∧
      (o = .created → g1.entryAt (tpd ++ f.drop rd.length) = some (.symlink f)) ∧
      (o = .skipped → g1.existsSync (tpd ++ f.drop rd.length) = true) := by
  intro g1 o h
  have hreg_t : RegionCV rootDir (tpd ++ f.drop rd.length) :=
    Or.inr (Or.inl (htpd.trans (List.prefix_append tpd _)))
  have hreg_p : RegionCV rootDir ((tpd ++ f.drop rd.length).dropLast) :=
    regionCV_of_prefix (List.dropLast_prefix _) hreg_t
  simp only [processRuleFile, Bool.false_and, Bool.false_eq_true, if_false] at h
  set s1 := if s.existsSync ((tpd ++ f.drop rd.length).dropLast) then s
            else s.mkdirRec ((tpd ++ f.drop rd.length).dropLast) with hs1def
  have hstep1 : StepOK rootDir s s1 := by
    rw [hs1def]
    split
    · exact stepOK_refl rootDir s
    · exact stepOK_mkdirRec s hreg_p
  have hgs1 : FS.GoodState s1 := by
    rw [hs1def]
    split
    · exact hgs
    · exact ⟨FS.WF_mkdirRec s _ hgs.1, FS.noD_mkdirRec s _ hgs.2⟩
  have hparent1 : s1.existsSync ((tpd ++ f.drop rd.length).dropLast) = true := by
    rw [hs1def]
    split
    · rename_i hex
      exact hex
    · rename_i hex
      have hnone : s.entryAt ((tpd ++ f.drop rd.length).dropLast) = none := by
        cases hent : s.entryAt ((tpd ++ f.drop rd.length).dropLast) with
        | none => rfl
        | some e0 =>
          cases e0 with
          | file d => exact absurd (FS.existsSync_of_file s hent) hex
          | dir => exact absurd (FS.existsSync_of_dir s hent) hex
          | symlink t => exact absurd (hgs.2 _ t hent) hex
      exact FS.existsSync_of_dir _ (FS.mkdirRec_entry_self s _ hnone)
  unfold attemptLink at h
  split at h
  · cases hsym : s1.symlinkSync f (tpd ++ f.drop rd.length) with
    | ok s2 =>
      rw [hsym] at h
      injection h with hA hB
      subst hA
      subst hB
      have hstep2 : StepOK rootDir s1 s2 := stepOK_symlinkSync_ok hsym hreg_t
      refine ⟨stepOK_trans hstep1 hstep2, ?_, ?_, ?_, ?_⟩
      · refine ⟨(FS.symlinkSync_ok_keeps hsym).2 hgs1.1, ?_⟩
        exact FS.noD_symlinkSync_ok hsym
          (FS.existsSync_mono_weak hstep1.2.2.2.2.1 hstep1.2.2.2.1 hsrc) hgs1.2
      · exact FS.existsSync_mono_weak hstep2.2.2.2.2.1 hstep2.2.2.2.1 hparent1
      · intro _
        exact FS.symlinkSync_ok_entry hsym
      · intro hsk
        exact absurd hsk (by simp)
    | error e =>
      rw [hsym] at h
      injection h with hA hB
      subst hA
      subst hB
      refine ⟨hstep1, hgs1, hparent1, ?_, ?_⟩
      · intro hcr
        exact absurd hcr (by simp)
      · intro hsk
        exact absurd hsk (by simp)
  · rename_i hext
    injection h with hA hB
    subst hA
    subst hB
    refine ⟨hstep1, hgs1, hparent1, ?_, ?_⟩
    · intro hcr
      exact absurd hcr (by simp)
    · intro _
      simpa using hext

theorem countOutcome_failed (st : Stats) (o : Outcome) :
    (countOutcome st o).failed = if o = .failed then st.failed + 1 else st.failed := by
  cases o with
  | created => rfl
  | skipped => rfl
  | failed => rfl

/-- existence of a non-Region entry in the base state gives existence at
any StepOK-related state with no dangling links -/
theorem existsSync_of_base_entry {rootDir : FPath} {fs g : FS} {f : FPath}
    (hstep : StepOK rootDir fs g) (hndg : g.NoD) {e : FSEntry}
    (hf : fs.entryAt f = some e) (hreg : ¬ RegionCV rootDir f) :
    g.existsSync f = true := by
  have hfg : g.entryAt f = some e := by
    rw [hstep.2.2.2.2.2.1 f hreg]
    exact hf
  cases e with
  | file d => exact FS.existsSync_of_file g hfg
  | dir => exact FS.existsSync_of_dir g hfg
  | symlink t => exact hndg f t hfg

theorem filesFold_run1 (rootDir rd tpd : FPath) (fs : FS) (files : List FPath)
    (htpd : (rootDir ++ [".cursor"]) <+: tpd) :
    ∀ (g : FS) (st : Stats) {gN : FS} {stN : Stats},
      processRuleFiles false rd tpd files g st = (gN, stN) →
      FS.GoodState g → StepOK rootDir fs g →
      (∀ f ∈ files, ∃ e, fs.entryAt f = some e ∧ ¬ RegionCV rootDir f) →
      StepOK rootDir g gN ∧ FS.GoodState gN ∧ StepOK rootDir fs gN ∧
      st.failed ≤ stN.failed ∧
      (stN.failed = st.failed →
        ∀ f ∈ files, gN.existsSync (tpd ++ f.drop rd.length) = true ∧
          gN.existsSync ((tpd ++ f.drop rd.length).dropLast) = true) := by
  induction files with
  | nil =>
    intro g st gN stN h hgs hfsg _
    injection h with hA hB
    subst hA
    subst hB
    exact ⟨stepOK_refl rootDir g, hgs, hfsg, Nat.le_refl _, fun _ f hf => absurd hf (List.not_mem_nil f)⟩
  | cons f rest ih =>
    intro g st gN stN h hgs hfsg hfiles
    obtain ⟨e, hfe, hfreg⟩ := hfiles f (List.mem_cons_self _ _)
    have hsrc : g.existsSync f = true := existsSync_of_base_entry hfsg hgs.2 hfe hfreg
    unfold processRuleFiles at h
    cases hpr : processRuleFile false rd tpd g f with
    | mk g1 o =>
      rw [hpr] at h
      obtain ⟨hstep1, hgs1, hpar1, hcr1, hsk1⟩ := perFile_false rootDir rd tpd g f hgs htpd hsrc hpr
      obtain ⟨hstepR, hgsN, hfsN, hfleR, hfactsR⟩ := ih g1 (countOutcome st o) h hgs1
        (stepOK_trans hfsg hstep1)
        (fun f2 hf2 => hfiles f2 (List.mem_cons_of_mem _ hf2))
      have hfle : st.failed ≤ stN.failed := by
        refine Nat.le_trans ?_ hfleR
        rw [countOutcome_failed]
        split
        · omega
        · omega
      refine ⟨stepOK_trans hstep1 hstepR, hgsN, hfsN, hfle, ?_⟩
      intro heq f2 hf2
      have honotfail : o ≠ .failed := by
        intro hof
        rw [countOutcome_failed, if_pos hof] at hfleR
        omega
      have hcount_eq : (countOutcome st o).failed = st.failed := by
        rw [countOutcome_failed, if_neg honotfail]
      have hrestfacts := hfactsR (by rw [hcount_eq]; exact heq)
      rcases List.mem_cons.mp hf2 with rfl | hf2t
      · constructor
        · cases o with
          | failed => exact absurd rfl honotfail
          | created =>
            have hent := hcr1 rfl
            have hentN : gN.entryAt (tpd ++ f2.drop rd.length) = some (.symlink f2) := by
              rcases hstepR.2.2.2.2.1 _ _ hent with hh | ⟨d1, d2, hdd, _⟩
              · exact hh
              · exact absurd hdd (by simp)
            exact hgsN.2 _ f2 hentN
          | skipped =>
            exact FS.existsSync_mono_weak hstepR.2.2.2.2.1 hstepR.2.2.2.1 (hsk1 rfl)
        · exact FS.existsSync_mono_weak hstepR.2.2.2.2.1 hstepR.2.2.2.1 hpar1
      · exact hrestfacts f2 hf2t

/-- the second run skips every file whose target and parent already
resolve, leaving the filesystem untouched -/
theorem filesFold_run2 (rd tpd : FPath) (files : List FPath) (g : FS)
    (hall : ∀ f ∈ files, g.existsSync (tpd ++ f.drop rd.length) = true ∧
      g.existsSync ((tpd ++ f.drop rd.length).dropLast) = true) :
    ∀ (st : Stats), processRuleFiles false rd tpd files g st =
      (g, { st with skipped := st.skipped + files.length }) := by
  induction files with
  | nil =>
    intro st
    show (g, st) = _
    have : st = { st with skipped := st.skipped + ([] : List FPath).length } := by
      cases st
      simp
    rw [← this]
  | cons f rest ih =>
    intro st
    obtain ⟨htgt, hpar⟩ := hall f (List.mem_cons_self _ _)
    have hpr : processRuleFile false rd tpd g f = (g, .skipped) := by
      simp only [processRuleFile, hpar, if_true, Bool.false_and, Bool.false_eq_true,
        if_false, attemptLink, htgt, Bool.not_true]
    unfold processRuleFiles
    rw [hpr]
    show processRuleFiles false rd tpd rest g (countOutcome st .skipped) = _
    rw [ih (fun f2 hf2 => hall f2 (List.mem_cons_of_mem _ hf2))]
    cases st
    simp only [countOutcome, List.length_cons]
    congr 2
    omega

/-! ## traversal congruence: across fuels and across states -/

namespace FS

theorem traverseFuel_eq_getAllFiles (fs : FS) (d : FPath) :
    fs.traverseFuel fs.depthFuel d = some (fs.getAllFiles d) := by
  have h : (fs.traverseFuel fs.depthFuel d).isSome := by
    apply traverseFuel_isSome
    · unfold depthFuel; omega
    · unfold depthFuel; omega
  obtain ⟨r, hr⟩ := Option.isSome_iff_exists.mp h
  rw [hr]
  unfold getAllFiles
  rw [hr]
  rfl

end FS

theorem traverseList_fuel_mono (g : FS) {n m : Nat}
    (hIH : ∀ d2 r2, g.traverseFuel n d2 = some r2 → g.traverseFuel m d2 = some r2) :
    ∀ (d : FPath) (es : List (String × FSEntry)) (r : Except Unit (List FPath)),
      traverseList (g.traverseFuel n) d es = some r →
      traverseList (g.traverseFuel m) d es = some r := by
  intro d es
  induction es with
  | nil => intro r h; exact h
  | cons a rest ih =>
    intro r h
    obtain ⟨name, ety⟩ := a
    cases ety with
    | dir =>
      simp only [traverseList] at h ⊢
      cases hrec : g.traverseFuel n (d ++ [name]) with
      | none => rw [hrec] at h; exact absurd h (by simp)
      | some x =>
        rw [hrec] at h
        rw [hIH _ _ hrec]
        cases x with
        | error e => exact h
        | ok sub =>
          cases hrl : traverseList (g.traverseFuel n) d rest with
          | none => rw [hrl] at h; exact absurd h (by simp)
          | some y =>
            rw [hrl] at h
            rw [ih _ hrl]
            exact h
    | file data =>
      simp only [traverseList] at h ⊢
      cases hrl : traverseList (g.traverseFuel n) d rest with
      | none => rw [hrl] at h; exact absurd h (by simp)
      | some y =>
        rw [hrl] at h
        rw [ih _ hrl]
        exact h
    | symlink t =>
      simp only [traverseList] at h ⊢
      cases hrl : traverseList (g.traverseFuel n) d rest with
      | none => rw [hrl] at h; exact absurd h (by simp)
      | some y =>
        rw [hrl] at h
        rw [ih _ hrl]
        exact h

theorem traverseFuel_fuel_mono (g : FS) :
    ∀ {n m : Nat}, n ≤ m → ∀ (d : FPath) (r : Except Unit (List FPath)),
      g.traverseFuel n d = some r → g.traverseFuel m d = some r := by
  intro n
  induction n with
  | zero => intro m _ d r h; exact absurd h (by simp [FS.traverseFuel])
  | succ n ih =>
    intro m hnm d r h
    obtain ⟨m', rfl⟩ : ∃ m', m = m' + 1 := ⟨m - 1, by omega⟩
    rw [FS.traverseFuel] at h ⊢
    cases hrd : g.readdirSync d with
    | error e => rw [hrd] at h; exact h
    | ok es =>
      rw [hrd] at h
      exact traverseList_fuel_mono g (fun d2 r2 h2 => ih (by omega) d2 r2 h2) d es r h

theorem traverseList_state_congr (r1 r2 : FPath → Option (Except Unit (List FPath)))
    (d : FPath) (es : List (String × FSEntry))
    (h : ∀ name ety, (name, ety) ∈ es → ety = .dir →
      r1 (d ++ [name]) = r2 (d ++ [name])) :
    traverseList r1 d es = traverseList r2 d es := by
  induction es with
  | nil => rfl
  | cons a rest ih =>
    obtain ⟨name, ety⟩ := a
    have hrest := ih (fun n e hm hd => h n e (List.mem_cons_of_mem _ hm) hd)
    cases ety with
    | dir =>
      simp only [traverseList]
      rw [h name .dir (List.mem_cons_self _ _) rfl, hrest]
    | file data =>
      simp only [traverseList]
      rw [hrest]
    | symlink t =>
      simp only [traverseList]
      rw [hrest]

theorem traverseFuel_state_congr {g1 g2 : FS} {base : FPath}
    (hrd : ∀ d2, base <+: d2 → g1.readdirSync d2 = g2.readdirSync d2) :
    ∀ (n : Nat) (d : FPath), base <+: d →
      g1.traverseFuel n d = g2.traverseFuel n d := by
  intro n
  induction n with
  | zero => intro d _; rfl
  | succ n ih =>
    intro d hd
    rw [FS.traverseFuel, FS.traverseFuel, ← hrd d hd]
    cases hr : g1.readdirSync d with
    | error e => rfl
    | ok es =>
      apply traverseList_state_congr
      intro name ety _ _
      exact ih (d ++ [name]) (hd.trans (List.prefix_append d [name]))

theorem getAllFiles_congr {g1 g2 : FS} {base : FPath}
    (hrd : ∀ d2, base <+: d2 → g1.readdirSync d2 = g2.readdirSync d2) :
    g1.getAllFiles base = g2.getAllFiles base := by
  have e1 := g1.traverseFuel_eq_getAllFiles base
  have e2 := g2.traverseFuel_eq_getAllFiles base
  have e1M : g1.traverseFuel (max g1.depthFuel g2.depthFuel) base
      = some (g1.getAllFiles base) :=
    traverseFuel_fuel_mono g1 (Nat.le_max_left _ _) base _ e1
  have e2M : g2.traverseFuel (max g1.depthFuel g2.depthFuel) base
      = some (g2.getAllFiles base) :=
    traverseFuel_fuel_mono g2 (Nat.le_max_right _ _) base _ e2
  have heq := traverseFuel_state_congr hrd (max g1.depthFuel g2.depthFuel) base
    (List.prefix_refl base)
  rw [e1M, e2M] at heq
  injection heq

/-! ## membership facts for the enumeration -/

theorem traverseList_mem (g : FS) (recurse : FPath → Option (Except Unit (List FPath)))
    (d : FPath) :
    ∀ (es : List (String × FSEntry)) (l : List FPath),
      traverseList recurse d es = some (.ok l) →
      (∀ name ety, (name, ety) ∈ es → g.entryAt (d ++ [name]) = some ety) →
      (∀ name ety, (name, ety) ∈ es → ety = .dir → ∀ l2,
        recurse (d ++ [name]) = some (.ok l2) →
        ∀ f ∈ l2, (∃ t, f = (d ++ [name]) ++ t) ∧ ∃ e, g.entryAt f = some e) →
      ∀ f ∈ l, (∃ t, f = d ++ t) ∧ ∃ e, g.entryAt f = some e := by
  intro es
  induction es with
  | nil =>
    intro l h _ _ f hf
    simp only [traverseList] at h
    injection h with h2
    injection h2 with h3
    rw [← h3] at hf
    exact absurd hf (List.not_mem_nil f)
  | cons a rest ih =>
    intro l h hes hrec f hf
    obtain ⟨name, ety⟩ := a
    cases ety with
    | dir =>
      simp only [traverseList] at h
      cases hr : recurse (d ++ [name]) with
      | none => rw [hr] at h; exact absurd h (by simp)
      | some x =>
        rw [hr] at h
        cases x with
        | error e => exact absurd h (by simp)
        | ok sub =>
          cases hrl : traverseList recurse d rest with
          | none => rw [hrl] at h; exact absurd h (by simp)
          | some y =>
            rw [hrl] at h
            cases y with
            | error e => exact absurd h (by simp)
            | ok restFiles =>
              simp only [Option.some.injEq, Except.ok.injEq] at h
              rw [← h] at hf
              rcases List.mem_append.mp hf with hsub | hrest
              · obtain ⟨⟨t, ht⟩, he⟩ := hrec name .dir (List.mem_cons_self _ _) rfl sub hr f hsub
                exact ⟨⟨[name] ++ t, by rw [ht, List.append_assoc]⟩, he⟩
              · exact ih restFiles hrl
                  (fun n e hm => hes n e (List.mem_cons_of_mem _ hm))
                  (fun n e hm hd => hrec n e (List.mem_cons_of_mem _ hm) hd) f hrest
    | file data =>
      simp only [traverseList] at h
      cases hrl : traverseList recurse d rest with
      | none => rw [hrl] at h; exact absurd h (by simp)
      | some y =>
        rw [hrl] at h
        cases y with
        | error e => exact absurd h (by simp)
        | ok restFiles =>
          simp only [Option.some.injEq, Except.ok.injEq] at h
          rw [← h] at hf
          rcases List.mem_cons.mp hf with rfl | hrest
          · exact ⟨⟨[name], rfl⟩, ⟨.file data, hes name _ (List.mem_cons_self _ _)⟩⟩
          · exact ih restFiles hrl
              (fun n e hm => hes n e (List.mem_cons_of_mem _ hm))
              (fun n e hm hd => hrec n e (List.mem_cons_of_mem _ hm) hd) f hrest
    | symlink t0 =>
      simp only [traverseList] at h
      cases hrl : traverseList recurse d rest with
      | none => rw [hrl] at h; exact absurd h (by simp)
      | some y =>
        rw [hrl] at h
        cases y with
        | error e => exact absurd h (by simp)
        | ok restFiles =>
          simp only [Option.some.injEq, Except.ok.injEq] at h
          rw [← h] at hf
          rcases List.mem_cons.mp hf with rfl | hrest
          · exact ⟨⟨[name], rfl⟩, ⟨.symlink t0, hes name _ (List.mem_cons_self _ _)⟩⟩
          · exact ih restFiles hrl
              (fun n e hm => hes n e (List.mem_cons_of_mem _ hm))
              (fun n e hm hd => hrec n e (List.mem_cons_of_mem _ hm) hd) f hrest

theorem traverseFuel_mem (g : FS) (hwf : g.WF) :
    ∀ (n : Nat) (d : FPath) (l : List FPath),
      g.traverseFuel n d = some (.ok l) →
      ∀ f ∈ l, (∃ t, f = d ++ t) ∧ ∃ e, g.entryAt f = some e := by
  intro n
  induction n with
  | zero => intro d l h; exact absurd h (by simp [FS.traverseFuel])
  | succ n ih =>
    intro d l h f hf
    rw [FS.traverseFuel] at h
    cases hrd : g.readdirSync d with
    | error e => rw [hrd] at h; exact absurd h (by simp)
    | ok es =>
      rw [hrd] at h
      have hes : ∀ name ety, (name, ety) ∈ es → g.entryAt (d ++ [name]) = some ety := by
        intro name ety hm
        have := childrenOf_mem (readdirSync_ok_eq hrd ▸ hm)
        exact entryAt_of_mem_wf hwf this
      exact traverseList_mem g _ d es l h hes
        (fun name ety _ _ l2 h2 f2 hf2 => ih (d ++ [name]) l2 h2 f2 hf2) f hf

theorem getAllFiles_mem {g : FS} (hwf : g.WF) {d : FPath} {l : List FPath}
    (h : g.getAllFiles d = .ok l) {f : FPath} (hf : f ∈ l) :
    (∃ t, f = d ++ t) ∧ ∃ e, g.entryAt f = some e := by
  have h2 := g.traverseFuel_eq_getAllFiles d
  rw [h] at h2
  exact traverseFuel_mem g hwf g.depthFuel d l h2 f hf

/-! ## StepOK accessors and frame equalities -/

theorem stepOK_unreadable {rootDir : FPath} {fs s : FS} (h : StepOK rootDir fs s) :
    s.unreadable = fs.unreadable := h.1

theorem stepOK_len {rootDir : FPath} {fs s : FS} (h : StepOK rootDir fs s) :
    fs.entries.length ≤ s.entries.length := h.2.2.2.1

theorem stepOK_weak {rootDir : FPath} {fs s : FS} (h : StepOK rootDir fs s) :
    FS.PresWeak fs s := h.2.2.2.2.1

theorem stepOK_frame {rootDir : FPath} {fs s : FS} (h : StepOK rootDir fs s) :
    ∀ p, ¬ RegionCV rootDir p → s.entryAt p = fs.entryAt p := h.2.2.2.2.2.1

theorem stepOK_children {rootDir : FPath} {fs s : FS} (h : StepOK rootDir fs s) :
    ∀ d, d ≠ vscodeDirOf rootDir →
      ∃ extra, s.childrenOf d = extra ++ fs.childrenOf d ∧
        ∀ x ∈ extra, RegionCV rootDir (d ++ [x.1]) := h.2.2.2.2.2.2

theorem subtree_shape {rootDir : FPath} {P : String} {q : FPath}
    (h : (rootDir ++ [P]) <+: q) : ∃ suffix, q = rootDir ++ P :: suffix := by
  obtain ⟨t, ht⟩ := h
  exact ⟨t, by rw [← ht, List.append_assoc]; rfl⟩

theorem subtree_not_region {rootDir : FPath} {P : String} {q : FPath}
    (hP : startsWithDot P = false) (h : (rootDir ++ [P]) <+: q) :
    ¬ RegionCV rootDir q := by
  obtain ⟨suffix, rfl⟩ := subtree_shape h
  exact not_regionCV_project hP suffix

theorem subtree_ne_vscodeDir {rootDir : FPath} {P : String} {q : FPath}
    (hP : startsWithDot P = false) (h : (rootDir ++ [P]) <+: q) :
    q ≠ vscodeDirOf rootDir := by
  intro heq
  subst heq
  have hlen := h.length_le
  simp only [vscodeDirOf, List.length_append, List.length_cons, List.length_nil] at hlen
  have : rootDir ++ [P] = vscodeDirOf rootDir := by
    apply List.IsPrefix.eq_of_length h
    simp [vscodeDirOf]
  unfold vscodeDirOf at this
  have hPv := List.append_cancel_left this
  have : P = ".vscode" := (List.cons_eq_cons.mp hPv).1
  rw [this] at hP
  exact absurd hP (by decide)

theorem existsSync_eq_of_frames {rootDir : FPath} {fs g1 g2 : FS} (hnd : fs.NoD)
    (h1 : StepOK rootDir fs g1) (h2 : StepOK rootDir fs g2) {q : FPath}
    (hq : ¬ RegionCV rootDir q) : g1.existsSync q = g2.existsSync q := by
  rw [FS.existsSync_stable (stepOK_weak h1) (stepOK_len h1) hnd (stepOK_frame h1 q hq),
    FS.existsSync_stable (stepOK_weak h2) (stepOK_len h2) hnd (stepOK_frame h2 q hq)]

theorem statIsDir_eq_of_frames {rootDir : FPath} {fs g1 g2 : FS} (hnd : fs.NoD)
    (h1 : StepOK rootDir fs g1) (h2 : StepOK rootDir fs g2) {q : FPath}
    (hq : ¬ RegionCV rootDir q) : g1.statIsDir q = g2.statIsDir q := by
  rw [FS.statIsDir_stable (stepOK_weak h1) (stepOK_len h1) hnd (stepOK_frame h1 q hq),
    FS.statIsDir_stable (stepOK_weak h2) (stepOK_len h2) hnd (stepOK_frame h2 q hq)]

theorem childrenOf_eq_of_frames {rootDir : FPath} {fs g1 g2 : FS} {P : String}
    (hP : startsWithDot P = false)
    (h1 : StepOK rootDir fs g1) (h2 : StepOK rootDir fs g2) {d2 : FPath}
    (hd2 : (rootDir ++ [P]) <+: d2) : g1.childrenOf d2 = g2.childrenOf d2 := by
  have hnv : d2 ≠ vscodeDirOf rootDir := subtree_ne_vscodeDir hP hd2
  have hone : ∀ {g : FS}, StepOK rootDir fs g → g.childrenOf d2 = fs.childrenOf d2 := by
    intro g hg
    obtain ⟨extra, hex, hreg⟩ := stepOK_children hg d2 hnv
    have hnil : extra = [] := by
      cases hextra : extra with
      | nil => rfl
      | cons x rest =>
        have := hreg x (hextra ▸ List.mem_cons_self _ _)
        exact absurd this (subtree_not_region hP
          (hd2.trans (List.prefix_append d2 [x.1])))
    rw [hnil] at hex
    simpa using hex
  rw [hone h1, hone h2]

theorem readdir_eq_subtree {rootDir : FPath} {fs g1 g2 : FS} {P : String}
    (hP : startsWithDot P = false) (hnd : fs.NoD)
    (h1 : StepOK rootDir fs g1) (h2 : StepOK rootDir fs g2) {d2 : FPath}
    (hd2 : (rootDir ++ [P]) <+: d2) :
    g1.readdirSync d2 = g2.readdirSync d2 := by
  have hnr : ¬ RegionCV rootDir d2 := subtree_not_region hP hd2
  unfold FS.readdirSync
  rw [stepOK_unreadable h1, stepOK_unreadable h2,
    statIsDir_eq_of_frames hnd h1 h2 hnr, childrenOf_eq_of_frames hP h1 h2 hd2]

/-! ## per-project simulation: run 2 skips everything run 1 settled -/

theorem perProject_sim (rootDir : FPath) (fs : FS) (P : String)
    (hP : startsWithDot P = false) (hndfs : fs.NoD)
    {s s' : FS} {st stP : Stats}
    (hgs : FS.GoodState s)
    (hfs_s : StepOK rootDir fs s)
    (hrun1 : processProject false rootDir s st P = .ok (s', stP)) :
    StepOK rootDir s s' ∧ FS.GoodState s' ∧ st.failed ≤ stP.failed ∧
    (∀ {fs1 : FS}, FS.GoodState fs1 → StepOK rootDir s' fs1 → StepOK rootDir fs fs1 →
      stP.failed = st.failed →
      ∀ st2 : Stats, ∃ k, processProject false rootDir fs1 st2 P =
        .ok (fs1, addSkips st2 k)) := by
  have hcursub : (rootDir ++ [P]) <+: (rootDir ++ [P, ".cursor"]) :=
    ⟨[".cursor"], by simp⟩
  have hnr_cursor : ¬ RegionCV rootDir (rootDir ++ [P, ".cursor"]) :=
    subtree_not_region hP hcursub
  have hrulesub : (rootDir ++ [P]) <+: (rootDir ++ [P, ".cursor"] ++ ["rules"]) :=
    ⟨[".cursor", "rules"], by simp⟩
  have hnr_rules : ¬ RegionCV rootDir (rootDir ++ [P, ".cursor"] ++ ["rules"]) :=
    subtree_not_region hP hrulesub
  simp only [processProject] at hrun1
  by_cases hg1 : (s.existsSync (rootDir ++ [P, ".cursor"])
      && s.statIsDir (rootDir ++ [P, ".cursor"])) = true
  · rw [if_pos hg1] at hrun1
    by_cases hg2 : (s.existsSync (rootDir ++ [P, ".cursor"] ++ ["rules"])
        && s.statIsDir (rootDir ++ [P, ".cursor"] ++ ["rules"])) = true
    · rw [if_pos hg2] at hrun1
      have hreg_tpd : RegionCV rootDir (rootDir ++ [".cursor", "rules", P]) :=
        Or.inr (Or.inl ⟨["rules", P], by simp⟩)
      have htpd_pref : (rootDir ++ [".cursor"]) <+: (rootDir ++ [".cursor", "rules", P]) :=
        ⟨["rules", P], by simp⟩
      set tpd := rootDir ++ [".cursor", "rules", P] with htpddef
      set rulesDir := rootDir ++ [P, ".cursor"] ++ ["rules"] with hrddef
      set fs1' := if s.existsSync tpd then s else s.mkdirRec tpd with hfs1m
      have hstep_mk : StepOK rootDir s fs1' := by
        rw [hfs1m]
        split
        · exact stepOK_refl rootDir s
        · exact stepOK_mkdirRec s hreg_tpd
      have hgs1' : FS.GoodState fs1' := by
        rw [hfs1m]
        split
        · exact hgs
        · exact ⟨FS.WF_mkdirRec s _ hgs.1, FS.noD_mkdirRec s _ hgs.2⟩
      cases hgaf : fs1'.getAllFiles rulesDir with
      | error e =>
        rw [hgaf] at hrun1
        exact absurd hrun1 (by simp)
      | ok files =>
        rw [hgaf] at hrun1
        injection hrun1 with hpair
        have hfilesOK : ∀ f ∈ files, ∃ e, fs.entryAt f = some e ∧ ¬ RegionCV rootDir f := by
          intro f hf
          obtain ⟨⟨t, hft⟩, e, he⟩ := getAllFiles_mem hgs1'.1 hgaf hf
          have hsub : (rootDir ++ [P]) <+: f := by
            rw [hft]
            exact hrulesub.trans (List.prefix_append rulesDir t)
          have hnr := subtree_not_region hP hsub
          refine ⟨e, ?_, hnr⟩
          rw [← stepOK_frame (stepOK_trans hfs_s hstep_mk) _ hnr]
          exact he
        obtain ⟨hstepF, hgs', hfs_s', hfleF, hfactsF⟩ :=
          filesFold_run1 rootDir rulesDir tpd fs files htpd_pref fs1'
            { st with totalRuleFiles := st.totalRuleFiles + files.length }
            hpair hgs1' (stepOK_trans hfs_s hstep_mk) hfilesOK
      
        refine ⟨stepOK_trans hstep_mk hstepF, hgs', ?_, ?_⟩
        · exact hfleF
        · intro fs1 hgs1 hrel1 hrelfs hfailEq st2
          refine ⟨files.length, ?_⟩
          have hrel_s_fs1 : StepOK rootDir s fs1 :=
            stepOK_trans hstep_mk (stepOK_trans hstepF hrel1)
          have hrel_fs1'_fs1 : StepOK rootDir fs1' fs1 := stepOK_trans hstepF hrel1
          simp only [processProject]
          rw [if_pos (by
            rw [existsSync_eq_of_frames hndfs hrelfs hfs_s hnr_cursor,
              statIsDir_eq_of_frames hndfs hrelfs hfs_s hnr_cursor]
            exact hg1)]
          rw [if_pos (by
            rw [existsSync_eq_of_frames hndfs hrelfs hfs_s hnr_rules,
              statIsDir_eq_of_frames hndfs hrelfs hfs_s hnr_rules]
            exact hg2)]
          have htpd_ex : fs1.existsSync tpd = true := by
            by_cases hse : s.existsSync tpd = true
            · exact FS.existsSync_mono_weak (stepOK_weak hrel_s_fs1)
                (stepOK_len hrel_s_fs1) hse
            · have hnone : s.entryAt tpd = none := by
                cases hent : s.entryAt tpd with
                | none => rfl
                | some e0 =>
                  cases e0 with
                  | file d => exact absurd (FS.existsSync_of_file s hent) hse
                  | dir => exact absurd (FS.existsSync_of_dir s hent) hse
                  | symlink t => exact absurd (hgs.2 _ t hent) hse
              have hdir : fs1'.entryAt tpd = some .dir := by
                rw [hfs1m, if_neg hse]
                exact FS.mkdirRec_entry_self s tpd hnone
              rcases stepOK_weak hrel_fs1'_fs1 tpd .dir hdir with hh | ⟨d1, d2, hdd, _⟩
              · exact FS.existsSync_of_dir fs1 hh
              · exact absurd hdd (by simp)
          rw [if_pos htpd_ex]
          have hgaf1 : fs1.getAllFiles rulesDir = .ok files := by
            rw [← hgaf]
            exact getAllFiles_congr (fun d2 hd2 =>
              readdir_eq_subtree hP hndfs hrelfs (stepOK_trans hfs_s hstep_mk)
                (hrulesub.trans hd2))
          simp only [hgaf1]
          have hallskip : ∀ f ∈ files,
              fs1.existsSync (tpd ++ f.drop rulesDir.length) = true ∧
              fs1.existsSync ((tpd ++ f.drop rulesDir.length).dropLast) = true := by
            intro f hf
            have hkey := hfactsF hfailEq f hf
            exact ⟨FS.existsSync_mono_weak (stepOK_weak hrel1) (stepOK_len hrel1) hkey.1,
              FS.existsSync_mono_weak (stepOK_weak hrel1) (stepOK_len hrel1) hkey.2⟩
          rw [filesFold_run2 rulesDir tpd files fs1 hallskip _]
          cases st2
          rfl
    · rw [if_neg hg2] at hrun1
      injection hrun1 with hpair
      obtain ⟨hA, hB⟩ := Prod.mk.injEq .. ▸ hpair
      subst hA
      subst hB
      refine ⟨stepOK_refl rootDir s, hgs, Nat.le_refl _, ?_⟩
      intro fs1 hgs1 hrel1 hrelfs _ st2
      refine ⟨0, ?_⟩
      simp only [processProject]
      rw [if_pos (by
        rw [existsSync_eq_of_frames hndfs hrelfs hfs_s hnr_cursor,
          statIsDir_eq_of_frames hndfs hrelfs hfs_s hnr_cursor]
        exact hg1)]
      rw [if_neg (by
        rw [existsSync_eq_of_frames hndfs hrelfs hfs_s hnr_rules,
          statIsDir_eq_of_frames hndfs hrelfs hfs_s hnr_rules]
        exact hg2)]
      cases st2
      rfl
  · rw [if_neg hg1] at hrun1
    injection hrun1 with hpair
    obtain ⟨hA, hB⟩ := Prod.mk.injEq .. ▸ hpair
    subst hA
    subst hB
    refine ⟨stepOK_refl rootDir s, hgs, Nat.le_refl _, ?_⟩
    intro fs1 hgs1 hrel1 hrelfs _ st2
    refine ⟨0, ?_⟩
    simp only [processProject]
    rw [if_neg (by
      rw [existsSync_eq_of_frames hndfs hrelfs hfs_s hnr_cursor,
        statIsDir_eq_of_frames hndfs hrelfs hfs_s hnr_cursor]
      exact hg1)]
    cases st2
    rfl

/-! ## the merged settings object always carries the key truthily -/

theorem find?_key_append_right {l1 l2 : List (String × JSONVal)} {key : String}
    (h : l1.find? (fun kv => kv.1 == key) = none) :
    (l1 ++ l2).find? (fun kv => kv.1 == key) = l2.find? (fun kv => kv.1 == key) := by
  induction l1 with
  | nil => rfl
  | cons a t ih =>
    rw [List.find?_cons] at h
    rw [List.cons_append, List.find?_cons]
    cases hk : (a.1 == key) with
    | true => rw [hk] at h; exact absurd h (by simp)
    | false =>
      rw [hk] at h
      exact ih h

theorem find?_key_append_left {l1 l2 : List (String × JSONVal)} {key : String}
    {x : String × JSONVal} (h : l1.find? (fun kv => kv.1 == key) = some x) :
    (l1 ++ l2).find? (fun kv => kv.1 == key) = some x := by
  induction l1 with
  | nil => exact absurd h (by simp)
  | cons a t ih =>
    rw [List.find?_cons] at h
    rw [List.cons_append, List.find?_cons]
    cases hk : (a.1 == key) with
    | true => rw [hk] at h; exact h
    | false =>
      rw [hk] at h
      exact ih h

theorem getKey_obj (l : List (String × JSONVal)) (k : String) :
    (JSONVal.obj l).getKey k = (l.find? (fun kv => kv.1 == k)).map (·.2) := rfl

theorem override_fst (key : String) (bval : JSONVal) (x : String × JSONVal) :
    (match lookupField [(key, bval)] x.1 with
     | some v => (x.1, v)
     | none => x).1 = x.1 := by
  cases h : lookupField [(key, bval)] x.1 with
  | some v => simp [h]
  | none => simp [h]

theorem override_at_key {key : String} {bval : JSONVal} {x : String × JSONVal}
    (hx : (x.1 == key) = true) :
    (match lookupField [(key, bval)] x.1 with
     | some v => (x.1, v)
     | none => x) = (x.1, bval) := by
  have hl : lookupField [(key, bval)] x.1 = some bval := by
    unfold lookupField
    rw [List.find?_cons_of_pos _ (by
      show (key == x.1) = true
      rw [beq_iff_eq]
      exact (beq_iff_eq.mp hx).symm)]
    rfl
  rw [hl]

theorem find?_map_override {key : String} {bval : JSONVal} :
    ∀ {fields : List (String × JSONVal)} {kv : String × JSONVal},
      fields.find? (fun kv2 => kv2.1 == key) = some kv →
      (fields.map (fun kv2 =>
          match lookupField [(key, bval)] kv2.1 with
          | some v => (kv2.1, v)
          | none => kv2)).find? (fun kv2 => kv2.1 == key) = some (kv.1, bval) := by
  intro fields
  induction fields with
  | nil => intro kv h; exact absurd h (by simp)
  | cons b t ih =>
    intro kv h
    rw [List.find?_cons] at h
    cases hk : (b.1 == key) with
    | true =>
      rw [hk] at h
      injection h with h2
      subst h2
      rw [List.map_cons]
      simp only [List.find?_cons, override_at_key hk, hk]
    | false =>
      rw [hk] at h
      rw [List.map_cons]
      simp only [List.find?_cons, override_fst, hk]
      exact ih h

theorem find?_map_override_none {key : String} {bval : JSONVal} :
    ∀ {fields : List (String × JSONVal)},
      fields.find? (fun kv2 => kv2.1 == key) = none →
      (fields.map (fun kv2 =>
          match lookupField [(key, bval)] kv2.1 with
          | some v => (kv2.1, v)
          | none => kv2)).find? (fun kv2 => kv2.1 == key) = none := by
  intro fields
  induction fields with
  | nil => intro _; rfl
  | cons b t ih =>
    intro h
    rw [List.find?_cons] at h
    cases hk : (b.1 == key) with
    | true =>
      rw [hk] at h
      exact absurd h (by simp)
    | false =>
      rw [hk] at h
      rw [List.map_cons]
      simp only [List.find?_cons, override_fst, hk]
      exact ih h

theorem getKey_spreadMerge_eslint (a : JSONVal) :
    (a.spreadMerge eslintConfigVal).getKey "eslint.workingDirectories"
      = some (.arr [.obj [("mode", .str "auto")]]) := by
  cases a with
  | obj fields =>
    show (JSONVal.obj _).getKey _ = _
    rw [getKey_obj]
    cases hfind : fields.find? (fun kv2 => kv2.1 == "eslint.workingDirectories") with
    | none =>
      rw [find?_key_append_right (find?_map_override_none hfind)]
      have hkeep : (lookupField fields "eslint.workingDirectories").isNone = true := by
        unfold lookupField
        rw [hfind]
        rfl
      rw [List.filter_cons_of_pos (by simpa using hkeep), List.find?_cons_of_pos _ (by simp)]
      rfl
    | some kv =>
      rw [find?_key_append_left (find?_map_override hfind)]
      rfl
  | null => rfl
  | bool b => rfl
  | num n => rfl
  | str s => rfl
  | arr elems => rfl

/-! ## the settings phase: StepOK, good-state preservation, run-2 stability -/

namespace FS

theorem readFileSync_some {fs : FS} {p : FPath} {c : FileData}
    (h : fs.readFileSync p = some c) : fs.entryAt p = some (.file c) := by
  unfold readFileSync at h
  cases he : fs.entryAt p with
  | none =>
    rw [he] at h
    have h2 : (none : Option FileData) = some c := h
    simp at h2
  | some e =>
    cases e with
    | file d =>
      rw [he] at h
      have h2 : some d = some c := h
      injection h2 with h3
      rw [h3]
    | dir =>
      rw [he] at h
      have h2 : (none : Option FileData) = some c := h
      simp at h2
    | symlink t =>
      rw [he] at h
      have h2 : (none : Option FileData) = some c := h
      simp at h2

theorem entryAt_none_of_not_exists {s : FS} (hnd : s.NoD) {p : FPath}
    (h : s.existsSync p = false) : s.entryAt p = none := by
  cases he : s.entryAt p with
  | none => rfl
  | some e =>
    cases e with
    | file d => exact absurd (existsSync_of_file s he) (by rw [h]; simp)
    | dir => exact absurd (existsSync_of_dir s he) (by rw [h]; simp)
    | symlink t => exact absurd (hnd p t he) (by rw [h]; simp)

theorem noD_of_noDanglingB {s : FS} (h : s.noDanglingB = true) : s.NoD := by
  intro p t hp
  unfold noDanglingB at h
  rw [List.all_eq_true] at h
  unfold entryAt at hp
  obtain ⟨pe, hpe, hpeq⟩ := Option.map_eq_some'.mp hp
  have hfind := List.find?_some hpe
  have hmem := List.mem_of_find?_eq_some hpe
  rw [beq_iff_eq] at hfind
  have hall := h pe hmem
  simp only [hpeq] at hall
  rw [hfind] at hall
  exact hall

end FS

theorem regionCV_vscodeDir (rootDir : FPath) : RegionCV rootDir (vscodeDirOf rootDir) :=
  Or.inr (Or.inr (List.prefix_refl _))

theorem regionCV_settingsPath (rootDir : FPath) : RegionCV rootDir (settingsPathOf rootDir) :=
  Or.inr (Or.inr ⟨["settings.json"], by simp [vscodeDirOf, settingsPathOf]⟩)

theorem settingsPath_dropLast (rootDir : FPath) :
    (settingsPathOf rootDir).dropLast = vscodeDirOf rootDir := by
  show (rootDir ++ [".vscode", "settings.json"]).dropLast = rootDir ++ [".vscode"]
  rw [show rootDir ++ [".vscode", "settings.json"]
      = (rootDir ++ [".vscode"]) ++ ["settings.json"] by simp]
  rw [List.dropLast_concat]

theorem stepOK_insert_file_over {rootDir : FPath} {fs : FS} {q : FPath} {d0 : FileData}
    (dn : FileData) (hwf : fs.WF) (hq : fs.entryAt q = some (.file d0))
    (hreg : RegionCV rootDir q) (hpar : q.dropLast = vscodeDirOf rootDir) :
    StepOK rootDir fs (fs.insert q (.file dn)) := by
  refine ⟨rfl, rfl, rfl, ?_, FS.presWeak_insert_file_over hq, ?_, ?_⟩
  · rw [FS.length_insert_occupied fs _ hwf hq]
  · intro p hp
    have hpq : p ≠ q := fun h => hp (h ▸ hreg)
    exact FS.entryAt_insert_ne fs _ hpq
  · intro d hd
    rw [FS.childrenOf_insert_not_child fs _ d (by rw [hpar]; exact Ne.symm hd)]
    exact ⟨[], rfl, by simp⟩

theorem settings_write_common (rootDir : FPath) {g1 g2 : FS}
    (hvex : g1.existsSync (vscodeDirOf rootDir) = true)
    (hstep : StepOK rootDir g1 g2)
    {M : JSONVal}
    (hent : g2.entryAt (settingsPathOf rootDir) = some (.file (.jsonData M)))
    (hM : M.getKey "eslint.workingDirectories"
      = some (.arr [.obj [("mode", .str "auto")]])) :
    createVSCodeSettings rootDir g2 = (g2, false) := by
  have hv2 : g2.existsSync (vscodeDirOf rootDir) = true :=
    FS.existsSync_mono_weak (stepOK_weak hstep) (stepOK_len hstep) hvex
  have hesp : g2.existsSync (settingsPathOf rootDir) = true :=
    FS.existsSync_of_file g2 hent
  have hrd : g2.readFileSync (settingsPathOf rootDir) = some (.jsonData M) := by
    unfold FS.readFileSync
    rw [hent]
  simp only [createVSCodeSettings]
  rw [if_pos hv2]
  simp only [mergeSettingsFile]
  rw [if_pos hesp]
  simp only [hrd]
  rw [if_pos (by rw [hM]; rfl)]

theorem settings_phase (rootDir : FPath) {g g2 : FS} {ch : Bool}
    (hgs : FS.GoodState g)
    (h1 : createVSCodeSettings rootDir g = (g2, ch)) :
    StepOK rootDir g g2 ∧ FS.GoodState g2 ∧
      createVSCodeSettings rootDir g2 = (g2, false) := by
  simp only [createVSCodeSettings] at h1
  set g1 := if g.existsSync (vscodeDirOf rootDir) then g
            else g.mkdirRec (vscodeDirOf rootDir) with hg1def
  have hstep01 : StepOK rootDir g g1 := by
    rw [hg1def]
    split
    · exact stepOK_refl rootDir g
    · exact stepOK_mkdirRec g (regionCV_vscodeDir rootDir)
  have hgs1 : FS.GoodState g1 := by
    rw [hg1def]
    split
    · exact hgs
    · exact ⟨FS.WF_mkdirRec g _ hgs.1, FS.noD_mkdirRec g _ hgs.2⟩
  have hvex : g1.existsSync (vscodeDirOf rootDir) = true := by
    rw [hg1def]
    split
    · rename_i hEv
      exact hEv
    · rename_i hEv
      have hEvf : g.existsSync (vscodeDirOf rootDir) = false := by
        cases hx : g.existsSync (vscodeDirOf rootDir) with
        | true => exact absurd hx hEv
        | false => rfl
      exact FS.existsSync_of_dir _ (FS.mkdirRec_entry_self g _
        (FS.entryAt_none_of_not_exists hgs.2 hEvf))
  simp only [mergeSettingsFile] at h1
  split at h1
  · -- the settings file already resolves
    rename_i hEsp
    cases hread : g1.readFileSync (settingsPathOf rootDir) with
    | none =>
      simp only [hread] at h1
      obtain ⟨hA, hB⟩ := Prod.mk.injEq .. ▸ h1
      subst hA
      refine ⟨hstep01, hgs1, ?_⟩
      simp only [createVSCodeSettings]
      rw [if_pos hvex]
      simp only [mergeSettingsFile]
      rw [if_pos hEsp]
      simp only [hread]
    | some content =>
      simp only [hread] at h1
      split at h1
      · -- the existing key is truthy: no write
        rename_i ht
        obtain ⟨hA, hB⟩ := Prod.mk.injEq .. ▸ h1
        subst hA
        refine ⟨hstep01, hgs1, ?_⟩
        simp only [createVSCodeSettings]
        rw [if_pos hvex]
        simp only [mergeSettingsFile]
        rw [if_pos hEsp]
        simp only [hread]
        rw [if_pos ht]
      · -- falsy or absent key: merged write
        rename_i ht
        obtain ⟨hA, hB⟩ := Prod.mk.injEq .. ▸ h1
        subst hA
        have hentry := FS.readFileSync_some hread
        have hstepW : StepOK rootDir g1
            (g1.writeFileSync (settingsPathOf rootDir)
              (.jsonData ((match content with
                | .jsonData v => v
                | .rawData _ => .obj []).spreadMerge eslintConfigVal))) :=
          stepOK_insert_file_over _ hgs1.1 hentry (regionCV_settingsPath rootDir)
            (settingsPath_dropLast rootDir)
        refine ⟨stepOK_trans hstep01 hstepW,
          ⟨FS.WF_insert g1 _ _ hgs1.1, FS.noD_insert_file_over hgs1.1 hentry hgs1.2⟩, ?_⟩
        exact settings_write_common rootDir hvex hstepW
          (FS.entryAt_insert_self g1 _ _) (getKey_spreadMerge_eslint _)
  · -- no settings file yet: fresh write of the eslint config
    rename_i hEspN
    have hEspF : g1.existsSync (settingsPathOf rootDir) = false := by
      cases hx : g1.existsSync (settingsPathOf rootDir) with
      | true => exact absurd hx hEspN
      | false => rfl
    have hnone : g1.entryAt (settingsPathOf rootDir) = none :=
      FS.entryAt_none_of_not_exists hgs1.2 hEspF
    obtain ⟨hA, hB⟩ := Prod.mk.injEq .. ▸ h1
    subst hA
    have hstepW : StepOK rootDir g1
        (g1.writeFileSync (settingsPathOf rootDir) (.jsonData eslintConfigVal)) :=
      stepOK_insert_fresh _ hnone (regionCV_settingsPath rootDir)
    refine ⟨stepOK_trans hstep01 hstepW,
      ⟨FS.WF_insert g1 _ _ hgs1.1,
        FS.noD_insert_fresh_nonlink hnone (by simp) hgs1.2⟩, ?_⟩
    exact settings_write_common rootDir hvex hstepW
      (FS.entryAt_insert_self g1 _ _) rfl

/-! ## whole-list simulation and run-2 of the project loop -/

theorem addSkips_addSkips (st : Stats) (k1 k2 : Nat) :
    addSkips (addSkips st k1) k2 = addSkips st (k1 + k2) := by
  cases st
  simp [addSkips, Nat.add_assoc]

theorem processProjects_sim (rootDir : FPath) (fs : FS) (hndfs : fs.NoD) :
    ∀ (projs : List String), (∀ P ∈ projs, startsWithDot P = false) →
    ∀ (s : FS) (st : Stats) {s' : FS} {stF : Stats},
      FS.GoodState s → StepOK rootDir fs s →
      processProjects false rootDir projs s st = .ok (s', stF) →
      StepOK rootDir s s' ∧ FS.GoodState s' ∧ st.failed ≤ stF.failed ∧
      (∀ {fs1 : FS}, FS.GoodState fs1 → StepOK rootDir s' fs1 → StepOK rootDir fs fs1 →
        stF.failed = st.failed →
        ∀ st2 : Stats, ∃ k, processProjects false rootDir projs fs1 st2 =
          .ok (fs1, addSkips st2 k)) := by
  intro projs
  induction projs with
  | nil =>
    intro _ s st s' stF hgs hfs hrun
    have h1' : (Except.ok (s, st) : Except Unit (FS × Stats)) = .ok (s', stF) := hrun
    injection h1' with hp
    obtain ⟨hA, hB⟩ := Prod.mk.injEq .. ▸ hp
    subst hA
    subst hB
    refine ⟨stepOK_refl rootDir s, hgs, Nat.le_refl _, ?_⟩
    intro fs1 _ _ _ _ st2
    refine ⟨0, ?_⟩
    show Except.ok (fs1, st2) = .ok (fs1, addSkips st2 0)
    cases st2
    rfl
  | cons P rest ih =>
    intro hdots s st s' stF hgs hfs hrun
    unfold processProjects at hrun
    cases hpp : processProject false rootDir s st P with
    | error e =>
      rw [hpp] at hrun
      exact absurd hrun (by simp)
    | ok r =>
      obtain ⟨s1, st1⟩ := r
      simp only [hpp] at hrun
      obtain ⟨h1, hg1, hfle1, hP2⟩ :=
        perProject_sim rootDir fs P (hdots P (List.mem_cons_self _ _)) hndfs hgs hfs hpp
      obtain ⟨h2, hg2, hfle2, hR2⟩ :=
        ih (fun Q hQ => hdots Q (List.mem_cons_of_mem _ hQ)) s1 st1 hg1
          (stepOK_trans hfs h1) hrun
      refine ⟨stepOK_trans h1 h2, hg2, Nat.le_trans hfle1 hfle2, ?_⟩
      intro fs1 hgs1 hrel1 hrelfs hfailEq st2
      have hst1eq : st1.failed = st.failed := by omega
      obtain ⟨k1, hk1⟩ := hP2 hgs1 (stepOK_trans h2 hrel1) hrelfs hst1eq st2
      obtain ⟨k2, hk2⟩ := hR2 hgs1 hrel1 hrelfs (by omega) (addSkips st2 k1)
      refine ⟨k1 + k2, ?_⟩
      simp only [processProjects, hk1]
      rw [hk2, addSkips_addSkips]

theorem projectsFrom_no_dot {ch : List (String × FSEntry)} {P : String}
    (h : P ∈ projectsFrom ch) : startsWithDot P = false := by
  have := (List.mem_filter.mp h).2
  simpa using this

theorem projectsFrom_append_dotted {extra ch : List (String × FSEntry)}
    (h : ∀ x ∈ extra, startsWithDot x.1 = true) :
    projectsFrom (extra ++ ch) = projectsFrom ch := by
  unfold projectsFrom
  rw [List.filter_append, List.map_append, List.filter_append]
  have hz : (((extra.filter (fun pe => isDirEntry pe.2)).map (·.1)).filter
      (fun n => !startsWithDot n)) = [] := by
    rw [List.filter_eq_nil_iff]
    intro n hn
    obtain ⟨x, hx, rfl⟩ := List.mem_map.mp hn
    simp [h x (List.mem_filter.mp hx).1]
  rw [hz, List.nil_append]

/-- C3 (amended): if the initial filesystem is well-formed and free of
dangling/cyclic symlinks and the first no-force run reports zero failures,
then a second no-force run on the resulting state succeeds, leaves the
filesystem exactly as it was, reports the settings unchanged, and counts
every rule file as skipped (zero created, zero failed). -/
theorem C3_idempotent (rootDir : FPath) (fs0 : FS) (res : RunResult)
    (hwf : fs0.WF) (hndB : fs0.noDanglingB = true)
    (h1 : run false rootDir fs0 = .ok res) (hfail : res.stats.failed = 0) :
    ∃ N K, run false rootDir res.fs =
      .ok ⟨res.fs, ⟨N, K, 0, K, 0⟩, false⟩ := by
  have hnd0 : fs0.NoD := FS.noD_of_noDanglingB hndB
  simp only [run] at h1
  set fs1 := if fs0.existsSync (rootCursorRulesDir rootDir) then fs0
             else fs0.mkdirRec (rootCursorRulesDir rootDir) with hfs1def
  have hgs1 : FS.GoodState fs1 := by
    rw [hfs1def]
    split
    · exact ⟨hwf, hnd0⟩
    · exact ⟨FS.WF_mkdirRec fs0 _ hwf, FS.noD_mkdirRec fs0 _ hnd0⟩
  have hrcrex : fs1.existsSync (rootCursorRulesDir rootDir) = true := by
    rw [hfs1def]
    split
    · rename_i hEv
      exact hEv
    · rename_i hEv
      have hEvf : fs0.existsSync (rootCursorRulesDir rootDir) = false := by
        cases hx : fs0.existsSync (rootCursorRulesDir rootDir) with
        | true => exact absurd hx hEv
        | false => rfl
      exact FS.existsSync_of_dir _ (FS.mkdirRec_entry_self fs0 _
        (FS.entryAt_none_of_not_exists hnd0 hEvf))
  cases hch : fs1.readdirSync rootDir with
  | error e =>
    rw [hch] at h1
    exact absurd h1 (by simp)
  | ok ch =>
    simp only [hch] at h1
    have hinv : fs1.unreadable.contains rootDir = false ∧
        fs1.statIsDir rootDir = true ∧ ch = fs1.childrenOf rootDir := by
      have hch' := hch
      unfold FS.readdirSync at hch'
      split at hch'
      · exact absurd hch' (by simp)
      · rename_i hc
        split at hch'
        · rename_i hd
          refine ⟨?_, hd, ?_⟩
          · cases hx : fs1.unreadable.contains rootDir with
            | true => exact absurd hx hc
            | false => rfl
          · injection hch' with h2
            exact h2.symm
        · exact absurd hch' (by simp)
    obtain ⟨hnur, hdir, hcheq⟩ := hinv
    cases hpp : processProjects false rootDir (projectsFrom ch) fs1
        ⟨(projectsFrom ch).length, 0, 0, 0, 0⟩ with
    | error e =>
      rw [hpp] at h1
      exact absurd h1 (by simp)
    | ok r =>
      obtain ⟨fs2, st⟩ := r
      simp only [hpp] at h1
      injection h1 with h1'
      subst h1'
      have hdots : ∀ P ∈ projectsFrom ch, startsWithDot P = false :=
        fun _ hP => projectsFrom_no_dot hP
      obtain ⟨hstepPP, hgs2, hfleP, hrun2P⟩ :=
        processProjects_sim rootDir fs1 hgs1.2 (projectsFrom ch) hdots fs1
          ⟨(projectsFrom ch).length, 0, 0, 0, 0⟩ hgs1 (stepOK_refl rootDir fs1) hpp
      cases hcv : createVSCodeSettings rootDir fs2 with
      | mk g2 chv =>
        obtain ⟨hstepS, hgsS, hrun2S⟩ := settings_phase rootDir hgs2 hcv
        have hfailst : st.failed = 0 := by
          have : (RunResult.mk (createVSCodeSettings rootDir fs2).1 st
              (createVSCodeSettings rootDir fs2).2).stats.failed = 0 := hfail
          exact this
        have hstep1g2 : StepOK rootDir fs1 g2 := stepOK_trans hstepPP hstepS
        have hrcr2 : g2.existsSync (rootCursorRulesDir rootDir) = true :=
          FS.existsSync_mono_weak (stepOK_weak hstep1g2) (stepOK_len hstep1g2) hrcrex
        have hrootne : rootDir ≠ vscodeDirOf rootDir := by
          intro h
          have := congrArg List.length h
          simp [vscodeDirOf] at this
        obtain ⟨extra, hex, hexreg⟩ := stepOK_children hstep1g2 rootDir hrootne
        have hexdot : ∀ x ∈ extra, startsWithDot x.1 = true :=
          fun x hx => region_child_dot (hexreg x hx)
        have hrd2 : g2.readdirSync rootDir = .ok (extra ++ fs1.childrenOf rootDir) := by
          unfold FS.readdirSync
          rw [stepOK_unreadable hstep1g2]
          rw [if_neg (by rw [hnur]; simp)]
          rw [if_pos (FS.statIsDir_mono_weak (stepOK_weak hstep1g2)
            (stepOK_len hstep1g2) hdir), hex]
        have hproj2 : projectsFrom (extra ++ fs1.childrenOf rootDir) = projectsFrom ch := by
          rw [projectsFrom_append_dotted hexdot, ← hcheq]
        obtain ⟨K, hK⟩ := hrun2P hgsS hstepS hstep1g2 hfailst
          ⟨(projectsFrom ch).length, 0, 0, 0, 0⟩
        refine ⟨(projectsFrom ch).length, 0 + K, ?_⟩
        show run false rootDir g2 =
          .ok ⟨g2, ⟨(projectsFrom ch).length, 0 + K, 0, 0 + K, 0⟩, false⟩
        simp only [run]
        rw [if_pos hrcr2]
        simp only [hrd2]
        rw [hproj2]
        simp only [hK]
        simp only [hrun2S]
        rfl

/-- witness for the amended idempotence claim: the two-project scenario
filesystem is well-formed and dangling-free, its first run succeeds with
zero failures, and the theorem yields an all-skip second run. -/
theorem C3_idempotent_witness :
    fsC5.WF ∧ fsC5.noDanglingB = true ∧
    ∃ res, run false ["root"] fsC5 = .ok res ∧ res.stats.failed = 0 ∧
      ∃ N K, run false ["root"] res.fs = .ok ⟨res.fs, ⟨N, K, 0, K, 0⟩, false⟩ :=
  ⟨by unfold FS.WF; decide, rfl, _, rfl, rfl,
    C3_idempotent ["root"] fsC5 _ (by unfold FS.WF; decide) rfl rfl rfl⟩
